import Mathlib

/-!
The go-xmlrpc client: the value codec and the client call

A shallow embedding of `xmlrpc.go`.

* Go's `interface{}` is the inductive type `GoValue`; a Go map is an association list whose
  keys are pairwise distinct, and the order of the list stands for the order in which `range`
  visits the entries during the run under consideration.
* `Value`, `Member`, `Param` and `MethodResponse` are the structs that `encoding/xml` fills.
  A slice field that is tested against `nil` is an `Option (List _)`: `none` is the nil slice.
* `log.Fatal` ends the process: a function that may reach it returns an `Option`, `none`
  standing for the fatal exit.
* The standard-library collaborators whose results the codec passes on untouched (`%f`,
  `%s` on a non-string operand, `strconv.ParseFloat`, `time.Parse`, `xml.Unmarshal`) are fields
  of `Env`; `strconv.Atoi` and `%d` are modelled in full, `int` being 64 bits wide, and
  `xml.Unmarshal` is modelled on the fragment of XML that the encoder writes.
-/

namespace Xmlrpc

/-! ## Go values -/

/-- The ten integer types listed in the type switch of `serialize`. -/
inductive IntKind where
  | int | int8 | int16 | int32 | int64 | uint | uint8 | uint16 | uint32 | uint64
  deriving DecidableEq, Repr

/-- The two floating types listed in the type switch of `serialize`. -/
inductive FloatKind where
  | float32 | float64
  deriving DecidableEq, Repr

/-- Smallest value of an integer type (`int` and `uint` are 64 bits wide). -/
def IntKind.minVal : IntKind → Int
  | .int => -(2 ^ 63) | .int8 => -(2 ^ 7) | .int16 => -(2 ^ 15) | .int32 => -(2 ^ 31)
  | .int64 => -(2 ^ 63)
  | .uint => 0 | .uint8 => 0 | .uint16 => 0 | .uint32 => 0 | .uint64 => 0

/-- Largest value of an integer type (`int` and `uint` are 64 bits wide). -/
def IntKind.maxVal : IntKind → Int
  | .int => 2 ^ 63 - 1 | .int8 => 2 ^ 7 - 1 | .int16 => 2 ^ 15 - 1 | .int32 => 2 ^ 31 - 1
  | .int64 => 2 ^ 63 - 1
  | .uint => 2 ^ 64 - 1 | .uint8 => 2 ^ 8 - 1 | .uint16 => 2 ^ 16 - 1 | .uint32 => 2 ^ 32 - 1
  | .uint64 => 2 ^ 64 - 1

/-- The integer `n` is a value of the integer type `k`. -/
def IntKind.holds (k : IntKind) (n : Int) : Prop := k.minVal ≤ n ∧ n ≤ k.maxVal

instance (k : IntKind) (n : Int) : Decidable (k.holds n) := by
  unfold IntKind.holds; infer_instance

/-- A `time.Time` instant: seconds and nanoseconds counted from the zero `time.Time`. -/
structure Time where
  sec : Int
  nsec : Nat
  deriving DecidableEq, Repr

/-- A Go `error` value that is not nil. -/
structure GoError where
  msg : String
  deriving DecidableEq, Repr

/-- A value held in an `interface{}`.  `float` carries the IEEE-754 bit pattern; `map` is a
`map[string]interface{}`; `reflMap` is any other value whose `reflect.Kind` is `Map`, with its
keys and elements boxed; `other` is every remaining dynamic type (named scalars, structs,
pointers, typed slices, ...). -/
inductive GoValue where
  | nil
  | str (s : String)
  | int (k : IntKind) (n : Int)
  | float (k : FloatKind) (bits : Nat)
  | bool (b : Bool)
  | time (t : Time)
  | slice (xs : List GoValue)
  | map (m : List (String × GoValue))
  | reflMap (m : List (GoValue × GoValue))
  | other (descr : String)

/-- The assignment `m[k] = v` on a map: an existing entry for `k` is overwritten, otherwise
an entry is added. -/
def mapSet (m : List (String × GoValue)) (k : String) (v : GoValue) : List (String × GoValue) :=
  match m with
  | [] => [(k, v)]
  | (k0, v0) :: rest => if k0 = k then (k, v) :: rest else (k0, v0) :: mapSet rest k v

/-- The lookup `m[k]` on a map (`none` when `k` is not a key). -/
def mapGet (m : List (String × GoValue)) (k : String) : Option GoValue :=
  match m with
  | [] => none
  | (k0, v0) :: rest => if k0 = k then some v0 else mapGet rest k

/-- The keys of a map. -/
def mapKeys (m : List (String × GoValue)) : List String := m.map Prod.fst

/-! ## Wire structs -/

mutual
/-- The struct `Value`: fields `List`, `Object`, `String`, `Int`, `Boolean`, `DateTime`,
`Double`, in this order. -/
inductive Value where
  | mk (list : Option (List Value)) (object : Option (List Member))
      (string int boolean dateTime double : String) : Value
/-- The struct `Member`: fields `Name` and `Value`. -/
inductive Member where
  | mk (name : String) (value : Value) : Member
end

/-- Field `List` (`array>data>value`). -/
def Value.list : Value → Option (List Value)
  | .mk l _ _ _ _ _ _ => l

/-- Field `Object` (`struct>member`). -/
def Value.object : Value → Option (List Member)
  | .mk _ o _ _ _ _ _ => o

/-- Field `String` (`string`). -/
def Value.string : Value → String
  | .mk _ _ s _ _ _ _ => s

/-- Field `Int` (`int`). -/
def Value.int : Value → String
  | .mk _ _ _ i _ _ _ => i

/-- Field `Boolean` (`boolean`). -/
def Value.boolean : Value → String
  | .mk _ _ _ _ b _ _ => b

/-- Field `DateTime` (`dateTime.iso8601`). -/
def Value.dateTime : Value → String
  | .mk _ _ _ _ _ d _ => d

/-- Field `Double` (`double`). -/
def Value.double : Value → String
  | .mk _ _ _ _ _ _ f => f

/-- Field `Name` of a member. -/
def Member.name : Member → String
  | .mk n _ => n

/-- Field `Value` of a member. -/
def Member.value : Member → Value
  | .mk _ v => v

/-- The zero `Value`: nil slices and empty texts. -/
def Value.zero : Value := .mk none none "" "" "" "" ""

/-- The struct `Param`. -/
structure Param where
  Value : Value

/-- The struct `MethodResponse`.  `Params` is only measured with `len` and ranged over, which
do not tell a nil slice from an empty one, so it is a plain list. -/
structure MethodResponse where
  Params : List Param
  Fault : Value

/-! ## `strconv.Atoi` and `%d` -/

/-- The two causes carried by a `*strconv.NumError`: `ErrSyntax` and `ErrRange`. -/
inductive NumError where
  | invalid
  | outOfRange
  deriving DecidableEq, Repr

/-- The constant `maxUint64`. -/
def maxUint64 : Nat := 2 ^ 64 - 1

/-- The digit loop of `strconv.ParseUint` for base 10 and bit size 64; `n` is the `uint64`
accumulated so far. -/
def parseUintLoop : List Char → Nat → Nat × Option NumError
  | [], n => (n, none)
  | c :: cs, n =>
    if 48 ≤ c.toNat ∧ c.toNat ≤ 57 then
      let d := c.toNat - 48
      if n ≥ maxUint64 / 10 + 1 then (maxUint64, some .outOfRange)
      else
        let n10 := (n * 10) % 2 ^ 64
        let n1 := (n10 + d) % 2 ^ 64
        if n1 < n10 ∨ n1 > maxUint64 then (maxUint64, some .outOfRange)
        else parseUintLoop cs n1
    else (0, some .invalid)

/-- `strconv.ParseUint(s, 10, 0)`. -/
def ParseUint (s : List Char) : Nat × Option NumError :=
  if s = [] then (0, some .invalid) else parseUintLoop s 0

/-- `strconv.ParseInt(s, 10, 0)`. -/
def ParseInt (s : List Char) : Int × Option NumError :=
  match s with
  | [] => (0, some .invalid)
  | c :: cs =>
    let neg := decide (c = '-')
    let rest := if c = '+' ∨ c = '-' then cs else c :: cs
    match ParseUint rest with
    | (_, some .invalid) => (0, some .invalid)
    | (un, _) =>
      let cutoff : Nat := 2 ^ 63
      if ¬ neg ∧ un ≥ cutoff then ((cutoff : Int) - 1, some .outOfRange)
      else if neg ∧ un > cutoff then (-(cutoff : Int), some .outOfRange)
      else (if neg then -(un : Int) else (un : Int), none)

/-- `strconv.Atoi`: by its documentation `ParseInt(s, 10, 0)` converted to `int`. -/
def Atoi (s : String) : Int × Option NumError := ParseInt s.data

/-- The verb `%d` applied to an integer: decimal digits, `-` in front of a negative. -/
def formatInt : Int → String
  | .ofNat m => String.mk (Nat.toDigits 10 m)
  | .negSucc m => "-" ++ String.mk (Nat.toDigits 10 (m + 1))

/-! ## Collaborators -/

/-- The library functions whose results the codec passes on unchanged. -/
structure Env where
  /-- The verb `%f` applied to a floating value. -/
  formatFloat : FloatKind → Nat → String
  /-- The verb `%s` applied to a map key that is not a `string`. -/
  formatKey : GoValue → String
  /-- First result of `strconv.ParseFloat(s, 64)`, as a bit pattern. -/
  parseFloat : String → Nat
  /-- First result of `time.Parse("20060102T15:04:05", s)`. -/
  parseTime : String → Time
  /-- Contents of `response` after `xml.Unmarshal(body, &response)` on a zero `response`. -/
  xmlUnmarshal : String → MethodResponse

/-! ## Decoding -/

mutual
/-- The function `unserialize`. -/
def unserialize (env : Env) : Value → GoValue
  | .mk (some l) _ _ _ _ _ _ => .slice (unserializeList env l)
  | .mk none (some o) _ _ _ _ _ => .map (unserializeMembers env o [])
  | .mk none none s i b d f =>
    if s ≠ "" then .str s
    else if i ≠ "" then .int .int (Atoi i).1
    else if b ≠ "" then .bool (b == "1")
    else if d ≠ "" then .time (env.parseTime d)
    else if f ≠ "" then .float .float64 (env.parseFloat f)
    else .nil
/-- The loop `for i, v := range value.List` of `unserialize`: `result[i] = unserialize(v)`. -/
def unserializeList (env : Env) : List Value → List GoValue
  | [] => []
  | v :: vs => unserialize env v :: unserializeList env vs
/-- The loop `for _, member := range value.Object` of `unserialize`, `result` being the map
built so far: `result[member.Name] = unserialize(member.Value)`. -/
def unserializeMembers (env : Env) :
    List Member → List (String × GoValue) → List (String × GoValue)
  | [], result => result
  | .mk name value :: ms, result =>
    unserializeMembers env ms (mapSet result name (unserialize env value))
end

/-- An `io.ReadCloser`, given by what `ioutil.ReadAll` obtains from it. -/
structure ReadCloser where
  readAll : Except GoError String

/-- The function `Unserialize`; the results are `none` for a nil slice. -/
def Unserialize (env : Env) (buffer : ReadCloser) :
    Option (List GoValue) × GoValue × Option GoError :=
  match buffer.readAll with
  | .error err => (none, .nil, some err)
  | .ok body =>
    let response := env.xmlUnmarshal body
    let result := response.Params.map (fun param => unserialize env param.Value)
    let fault := unserialize env response.Fault
    (some result, fault, none)

/-! ## Encoding -/

mutual
/-- The function `serialize`; `none` is the exit through `log.Fatal`. -/
def serialize (env : Env) : GoValue → Option String
  | .str s => some ("<value>" ++ ("<string>" ++ s ++ "</string>") ++ "</value>")
  | .int _ n => some ("<value>" ++ ("<int>" ++ formatInt n ++ "</int>") ++ "</value>")
  | .float k f => some ("<value>" ++ ("<float>" ++ env.formatFloat k f ++ "</float>") ++ "</value>")
  | .map m =>
    match serializeEntries env m ("<value>" ++ "<struct>") with
    | none => none
    | some result => some (result ++ "</struct>" ++ "</value>")
  | .reflMap m =>
    match serializeKeyed env m ("<value>" ++ "<struct>") with
    | none => none
    | some result => some (result ++ "</struct>" ++ "</value>")
  | .nil => none
  | .bool _ => none
  | .time _ => none
  | .slice _ => none
  | .other _ => none
/-- The loop `for k, v := range value.(map[string]interface{})` of `serialize`. -/
def serializeEntries (env : Env) : List (String × GoValue) → String → Option String
  | [], result => some result
  | (k, v) :: rest, result =>
    match serialize env v with
    | none => none
    | some s =>
      serializeEntries env rest (result ++ "<member>" ++ ("<name>" ++ k ++ "</name>") ++ s ++ "</member>")
/-- The loop `for _, k := range tmpVal.MapKeys()` of `serialize`. -/
def serializeKeyed (env : Env) : List (GoValue × GoValue) → String → Option String
  | [], result => some result
  | (k, v) :: rest, result =>
    match serialize env v with
    | none => none
    | some s =>
      serializeKeyed env rest
        (result ++ "<member>" ++ ("<name>" ++ (match k with | .str t => t | _ => env.formatKey k) ++ "</name>")
          ++ s ++ "</member>")
end

/-- The loop `for _, value := range params` of `Serialize`. -/
def serializeParams (env : Env) : List GoValue → String → Option String
  | [], request => some request
  | value :: rest, request =>
    match serialize env value with
    | none => none
    | some s => serializeParams env rest (request ++ "<param>" ++ s ++ "</param>")

/-- The function `Serialize`; `none` is the exit through `log.Fatal`. -/
def Serialize (env : Env) (method : String) (params : List GoValue) : Option String :=
  match serializeParams env params
      ("<methodCall>" ++ ("<methodName>" ++ method ++ "</methodName>") ++ "<params>") with
  | none => none
  | some request => some (request ++ "</params></methodCall>")

/-! ## The client call -/

/-- What a call does to the outside world: a POST through the transport, and the closing of
a response body. -/
inductive Event where
  | post (url contentType body : String)
  | close
  deriving DecidableEq, Repr

/-- The four results of `Request`; `results` is `none` for a nil slice, `err` is `none` for a
nil error. -/
structure RequestResult where
  results : Option (List GoValue)
  fault : GoValue
  request : String
  err : Option GoError

/-- The function `Request`, with `http.Post` as the parameter `httpPost`.  The result is
paired with the events of the call in the order they happen; `none` is the exit through
`log.Fatal` inside `Serialize`. -/
def Request (env : Env) (httpPost : String → String → String → Except GoError ReadCloser)
    (url method : String) (params : List GoValue) : Option (RequestResult × List Event) :=
  match Serialize env method params with
  | none => none
  | some request =>
    match httpPost url "text/xml" request with
    | .error err => some (⟨none, .nil, "", some err⟩, [.post url "text/xml" request])
    | .ok body =>
      match Unserialize env body with
      | (_, _, some err) => some (⟨none, .nil, "", some err⟩, [.post url "text/xml" request, .close])
      | (resp, fault, none) => some (⟨resp, fault, request, none⟩, [.post url "text/xml" request, .close])

/-! ## Vocabulary of the specification -/

/-- Some field of a wire value passes the presence test of `unserialize`: a slice that is
not nil, or a text that is not empty. -/
def Value.populated (v : Value) : Prop :=
  v.list ≠ none ∨ v.object ≠ none ∨ v.string ≠ "" ∨ v.int ≠ "" ∨ v.boolean ≠ "" ∨
    v.dateTime ≠ "" ∨ v.double ≠ ""

/-- A value is a string, an integer of one of the ten listed types, a floating value or a
mapping. -/
def GoValue.accepted : GoValue → Bool
  | .str _ => true
  | .int _ _ => true
  | .float _ _ => true
  | .map _ => true
  | .reflMap _ => true
  | _ => false

mutual
/-- A value together with every value nested, at any depth, inside a mapping that is being
serialized. -/
def GoValue.nested : GoValue → List GoValue
  | .map m => .map m :: nestedEntries m
  | .reflMap m => .reflMap m :: nestedKeyed m
  | .nil => [.nil]
  | .str s => [.str s]
  | .int k n => [.int k n]
  | .float k f => [.float k f]
  | .bool b => [.bool b]
  | .time t => [.time t]
  | .slice xs => [.slice xs]
  | .other d => [.other d]
/-- The values nested in the entries of a `map[string]interface{}`. -/
def nestedEntries : List (String × GoValue) → List GoValue
  | [] => []
  | (_, v) :: rest => GoValue.nested v ++ nestedEntries rest
/-- The values nested in the entries of another mapping. -/
def nestedKeyed : List (GoValue × GoValue) → List GoValue
  | [] => []
  | (_, v) :: rest => GoValue.nested v ++ nestedKeyed rest
end

/-- Every value met while serializing is accepted by the type dispatch. -/
def GoValue.supported (v : GoValue) : Prop := ∀ u ∈ v.nested, u.accepted = true

/-- The value of the last member named `k`, if there is one. -/
def lastNamed (ms : List Member) (k : String) : Option Value :=
  ((ms.filter (fun m => m.name = k)).getLast?).map Member.value

/-- The slice that `encoding/xml` leaves in a field after appending the given elements one
by one to a nil slice: nil when there is no element. -/
def sliceOf {α : Type} : List α → Option (List α)
  | [] => none
  | x :: xs => some (x :: xs)

mutual
/-- The wire value that holds, each in the field of its tag, the texts `serialize` writes
for a value: a string in `String`, the decimal text of an integer in `Int`, one member per
entry of a mapping in `Object` (nil when there is no entry), and nothing for a floating
value, whose tag `float` is the tag of no field.  It reads no text: that it is what the
reader returns on the text of `serialize`, when the texts written verbatim are plain, is
the theorem `xmlUnmarshalValue_serialize`. -/
def wireOf (env : Env) : GoValue → Value
  | .str s => .mk none none s "" "" "" ""
  | .int _ n => .mk none none "" (formatInt n) "" "" ""
  | .map m => .mk none (sliceOf (wireMembers env m)) "" "" "" "" ""
  | .reflMap m => .mk none (sliceOf (wireKeyed env m)) "" "" "" "" ""
  | .float _ _ => Value.zero
  | .nil => Value.zero
  | .bool _ => Value.zero
  | .time _ => Value.zero
  | .slice _ => Value.zero
  | .other _ => Value.zero
/-- The members of `wireOf` for a `map[string]interface{}`: one per entry, in the order
of emission, named by the key. -/
def wireMembers (env : Env) : List (String × GoValue) → List Member
  | [] => []
  | (k, v) :: rest => .mk k (wireOf env v) :: wireMembers env rest
/-- The members of `wireOf` for another mapping: one per entry, in the order of emission,
named by the rendered key. -/
def wireKeyed (env : Env) : List (GoValue × GoValue) → List Member
  | [] => []
  | (k, v) :: rest =>
    .mk (match k with | .str t => t | _ => env.formatKey k) (wireOf env v) :: wireKeyed env rest
end

/-- The integer widening that decoding applies: every integer comes back as an `int`. -/
def asDecoded : GoValue → GoValue
  | .int _ n => .int .int n
  | v => v

/-- A collaborator set for examples: `xml.Unmarshal` leaves the given tree, the other
functions return fixed values. -/
def stubEnv (response : MethodResponse) : Env where
  formatFloat := fun _ _ => "0.000000"
  formatKey := fun _ => ""
  parseFloat := fun _ => 0
  parseTime := fun _ => ⟨0, 0⟩
  xmlUnmarshal := fun _ => response

/-- A wire value holding only an `<int>` text. -/
def intValue (text : String) : Value := .mk none none "" text "" "" ""

/-- The tree of a reply that holds only the fault `{faultCode: 1, faultString: "bad"}`. -/
def faultOnlyResponse : MethodResponse :=
  ⟨[], .mk none
    (some [.mk "faultCode" (intValue "1"), .mk "faultString" (.mk none none "bad" "" "" "" "")])
    "" "" "" "" ""⟩

/-- The tree of a reply that holds the single param `<int>5</int>` and no fault. -/
def sumResponse : MethodResponse := ⟨[⟨intValue "5"⟩], Value.zero⟩

/-- The values of the struct round trip: a string that is not empty, or an integer of a
listed type that fits the 64-bit `int`. -/
def scalarInRange : GoValue → Prop
  | .str s => s ≠ ""
  | .int k n => k.holds n ∧ n ≤ 2 ^ 63 - 1
  | _ => False

/-! ## Decimal texts -/

/-- The number written by a run of decimal digits, read from the left. -/
def digitsValue (l : List Char) : Nat := l.foldl (fun a c => a * 10 + (c.toNat - 48)) 0

/-- Every character is one of the ten decimal digits. -/
def allDigits (l : List Char) : Prop := ∀ c ∈ l, 48 ≤ c.toNat ∧ c.toNat ≤ 57

instance (l : List Char) : Decidable (allDigits l) := by
  unfold allDigits; infer_instance

/-- The integer a text denotes when it is a decimal integer, that is an optional sign
followed by at least one decimal digit; `none` for any other text. -/
def decimalValue (s : String) : Option Int :=
  match s.data with
  | [] => none
  | c :: cs =>
    if c = '-' then
      if cs ≠ [] ∧ allDigits cs then some (-(digitsValue cs : Int)) else none
    else if c = '+' then
      if cs ≠ [] ∧ allDigits cs then some (digitsValue cs : Int) else none
    else if allDigits (c :: cs) then some (digitsValue (c :: cs) : Int) else none

/-! ## Occurrences of a tag in a text -/

/-- The number of positions of a text at which the pattern starts. -/
def countOccurrences (pat : List Char) : List Char → Nat
  | [] => 0
  | c :: cs => (if pat.isPrefixOf (c :: cs) then 1 else 0) + countOccurrences pat cs

/-- The number of occurrences of the opening tag `<param>` in a text. -/
def paramCount (s : String) : Nat := countOccurrences "<param>".data s.data

mutual
/-- No text that `serialize` inserts verbatim for this value (a string, a map key, the
rendering of a floating value) contains the opening tag `<param>`. -/
def GoValue.tagFree (env : Env) : GoValue → Prop
  | .str s => paramCount s = 0
  | .float k f => paramCount (env.formatFloat k f) = 0
  | .map m => tagFreeEntries env m
  | .reflMap m => tagFreeKeyed env m
  | .int _ _ => True
  | .nil => True
  | .bool _ => True
  | .time _ => True
  | .slice _ => True
  | .other _ => True
/-- The keys and values of a `map[string]interface{}` are free of the tag. -/
def tagFreeEntries (env : Env) : List (String × GoValue) → Prop
  | [] => True
  | (k, v) :: rest => paramCount k = 0 ∧ GoValue.tagFree env v ∧ tagFreeEntries env rest
/-- The rendered keys and the values of another mapping are free of the tag. -/
def tagFreeKeyed (env : Env) : List (GoValue × GoValue) → Prop
  | [] => True
  | (k, v) :: rest =>
    paramCount (match k with | .str t => t | _ => env.formatKey k) = 0 ∧
      GoValue.tagFree env v ∧ tagFreeKeyed env rest
end

/-! ## Size of a wire value and step-bounded decoding -/

mutual
/-- The number of `Value` nodes of a wire value, itself included. -/
def Value.size : Value → Nat
  | .mk (some l) (some o) _ _ _ _ _ => 1 + sizeList l + sizeMembers o
  | .mk (some l) none _ _ _ _ _ => 1 + sizeList l
  | .mk none (some o) _ _ _ _ _ => 1 + sizeMembers o
  | .mk none none _ _ _ _ _ => 1
/-- The number of `Value` nodes in a list of values. -/
def sizeList : List Value → Nat
  | [] => 0
  | v :: vs => Value.size v + sizeList vs
/-- The number of `Value` nodes in a list of members. -/
def sizeMembers : List Member → Nat
  | [] => 0
  | .mk _ v :: ms => Value.size v + sizeMembers ms
end

/-- The array loop of `unserialize` over a decoder `call` that may run out of fuel: the
first call that does ends the loop. -/
def listLoop (call : Value → Option GoValue) : List Value → Option (List GoValue)
  | [] => some []
  | v :: vs =>
    match call v with
    | none => none
    | some x =>
      match listLoop call vs with
      | none => none
      | some xs => some (x :: xs)

/-- The member loop of `unserialize` over a decoder `call` that may run out of fuel, `result`
being the map built so far. -/
def memberLoop (call : Value → Option GoValue) :
    List Member → List (String × GoValue) → Option (List (String × GoValue))
  | [], result => some result
  | .mk name value :: ms, result =>
    match call value with
    | none => none
    | some x => memberLoop call ms (mapSet result name x)

/-- The function `unserialize` run with a bound on the depth of the call stack: every call
takes one unit of `fuel` and passes what is left to the calls it makes; `none` when a call
is reached with no fuel left. -/
def unserializeFuel (env : Env) : Nat → Value → Option GoValue
  | 0, _ => none
  | fuel + 1, .mk (some l) _ _ _ _ _ _ =>
    (listLoop (unserializeFuel env fuel) l).map GoValue.slice
  | fuel + 1, .mk none (some o) _ _ _ _ _ =>
    (memberLoop (unserializeFuel env fuel) o []).map GoValue.map
  | _ + 1, .mk none none s i b d f =>
    if s ≠ "" then some (.str s)
    else if i ≠ "" then some (.int .int (Atoi i).1)
    else if b ≠ "" then some (.bool (b == "1"))
    else if d ≠ "" then some (.time (env.parseTime d))
    else if f ≠ "" then some (.float .float64 (env.parseFloat f))
    else some .nil

/-! ## The XML reader

`encoding/xml` is a collaborator outside the repository.  What follows is a model of
`xml.Unmarshal` into the structs of this package, for the fragment of XML that the encoder
writes and the tests of the specification read: elements without attributes whose names are
ASCII, and character data in which the only entity references are the five named ones.  On
any other construct the model answers `none` and says nothing.

The reader works in three steps: `lexText` is `Decoder.Token`, `buildTree` collects the
tokens into a tree up to the end of the root element or the first error, and `fillValue`
and its companions are `Decoder.unmarshal` walking that tree along the field tags. -/

/-- What `Decoder.Token` returns: a start tag, an end tag, character data; `broken` is a
syntax error, `beyond` a construct outside the fragment modelled.  The end of the list is
the end of the input. -/
inductive Token where
  | start (name : String)
  | stop (name : String)
  | chars (data : String)
  | broken
  | beyond
  deriving DecidableEq, Repr

/-- The characters XML allows in a document (`isInCharacterRange`). -/
def inCharacterRange (c : Char) : Bool :=
  c.toNat = 0x09 || c.toNat = 0x0A || c.toNat = 0x0D ||
    (0x20 ≤ c.toNat && c.toNat ≤ 0xD7FF) || (0xE000 ≤ c.toNat && c.toNat ≤ 0xFFFD) ||
    (0x10000 ≤ c.toNat && c.toNat ≤ 0x10FFFF)

/-- The ASCII characters of a name: letters, digits, `_`, `.` and `-`. -/
def nameByte (c : Char) : Bool :=
  (97 ≤ c.toNat && c.toNat ≤ 122) || (65 ≤ c.toNat && c.toNat ≤ 90) ||
    (48 ≤ c.toNat && c.toNat ≤ 57) || c.toNat = 95 || c.toNat = 46 || c.toNat = 45

/-- The ASCII characters that may begin a name: letters and `_`. -/
def nameStart (c : Char) : Bool :=
  (97 ≤ c.toNat && c.toNat ≤ 122) || (65 ≤ c.toNat && c.toNat ≤ 90) || c.toNat = 95

/-- The rewriting of line ends in character data: a carriage return becomes a line feed,
and a line feed right after a carriage return (`cr`) is dropped. -/
def newlines (cr : Bool) : List Char → List Char
  | [] => []
  | c :: cs =>
    if c.toNat = 13 then Char.ofNat 10 :: newlines true cs
    else if cr && c.toNat = 10 then newlines false cs
    else c :: newlines false cs

/-- The character data read so far, as a token; no token when there is none. -/
def flush (acc : List Char) : List Token :=
  if acc = [] then [] else [.chars (String.mk (newlines false acc))]

/-- The character a named entity stands for; only the five names XML predefines are
modelled. -/
def entityChar (name : List Char) : Option Char :=
  if String.mk name = "amp" then some '&'
  else if String.mk name = "lt" then some '<'
  else if String.mk name = "gt" then some '>'
  else if String.mk name = "apos" then some (Char.ofNat 39)
  else if String.mk name = "quot" then some (Char.ofNat 34)
  else none

mutual
/-- `Decoder.Token` reading character data: `stk` holds the names of the open elements,
innermost first, `acc` the bytes read since the last tag.  `]]>` is an error. -/
def lexText (stk : List String) (acc : List Char) : List Char → List Token
  | [] => flush acc
  | c :: cs =>
    if c = '<' then flush acc ++ lexOpen stk cs
    else if c = '&' then lexEntity stk acc [] cs
    else if inCharacterRange c = false then [.broken]
    else if c = '>' ∧ [']', ']'].isSuffixOf acc then [.broken]
    else lexText stk (acc ++ [c]) cs
termination_by structural x => x
/-- `Decoder.Token` just after a `&`: the name up to the `;` is replaced by the character
it stands for; a reference by number or by another name is outside the fragment. -/
def lexEntity (stk : List String) (acc name : List Char) : List Char → List Token
  | [] => [.beyond]
  | c :: cs =>
    if c = ';' then
      match entityChar name with
      | some r => lexText stk (acc ++ [r]) cs
      | none => [.beyond]
    else if nameByte c then lexEntity stk acc (name ++ [c]) cs
    else [.beyond]
termination_by structural x => x
/-- `Decoder.Token` just after a `<`. -/
def lexOpen (stk : List String) : List Char → List Token
  | [] => [.broken]
  | c :: cs =>
    if c = '/' then lexName stk true [] cs
    else if nameStart c then lexName stk false [c] cs
    else [.beyond]
termination_by structural x => x
/-- `Decoder.Token` reading the name of a start tag, or of an end tag when `closing`; an end
tag must bear the name of the innermost open element.  An ASCII character that can neither
continue the name nor begin what may follow it (white space, `/`) is an error. -/
def lexName (stk : List String) (closing : Bool) (acc : List Char) : List Char → List Token
  | [] => [.broken]
  | c :: cs =>
    if c = '>' then
      if closing then
        match stk with
        | [] => [.broken]
        | top :: below =>
          if String.mk acc = top then .stop top :: lexText below [] cs else [.broken]
      else .start (String.mk acc) :: lexText (String.mk acc :: stk) [] cs
    else if nameByte c then lexName stk closing (acc ++ [c]) cs
    else if c.toNat < 128 ∧ c ≠ '/' ∧ c ≠ ' ' ∧ c.toNat ≠ 9 ∧ c.toNat ≠ 10 ∧ c.toNat ≠ 13 then
      [.broken]
    else [.beyond]
termination_by structural x => x
end

/-- An element with its children in document order, or a run of character data.  `closed`
tells whether the end tag was read before the input ended or went wrong. -/
inductive Node where
  | elem (name : String) (closed : Bool) (kids : List Node)
  | text (data : String)

/-- The open elements, outermost last, closed by force around what was read of them. -/
def salvageFrom : Option Node → List (String × List Node) → Option Node
  | inner, [] => inner
  | inner, (n, kids) :: stack => salvageFrom (some (.elem n false (kids ++ inner.toList))) stack

/-- The tree of the root element: tokens are read until the root element ends, the input
ends or a token is `broken`.  `stack` holds the open elements, innermost first, each with
the children read so far.  The result is `none` on a token outside the fragment, `some none`
when no element was met. -/
def buildTree : List (String × List Node) → List Token → Option (Option Node)
  | stack, [] => some (salvageFrom none stack)
  | stack, .start n :: ts => buildTree ((n, []) :: stack) ts
  | [], .chars _ :: ts => buildTree [] ts
  | (n, kids) :: below, .chars s :: ts => buildTree ((n, kids ++ [.text s]) :: below) ts
  | [], .stop _ :: _ => some none
  | [(n, kids)], .stop _ :: _ => some (some (.elem n true kids))
  | (n, kids) :: (m, sibs) :: below, .stop _ :: ts =>
    buildTree ((m, sibs ++ [.elem n true kids]) :: below) ts
  | stack, .broken :: _ => some (salvageFrom none stack)
  | _, .beyond :: _ => none

/-- The character data lying directly in an element, which is what a string field
receives; nested elements are skipped. -/
def textOf : List Node → String
  | [] => ""
  | .text s :: rest => s ++ textOf rest
  | .elem _ _ _ :: rest => textOf rest

mutual
/-- `Decoder.unmarshal` into a `Value`, over the children of the element in document
order. -/
def fillValue : Value → List Node → Value
  | v, [] => v
  | v, kid :: rest => fillValue (fillValueKid v kid) rest
/-- One child of an element read into a `Value`: it is matched against the field tags, and
a child that matches none is skipped, as is character data.  A string field is set when its
element ends, so an element left open sets nothing. -/
def fillValueKid : Value → Node → Value
  | v, .text _ => v
  | .mk l o s i b d f, .elem n closed kids =>
    if n = "array" then fillArray (.mk l o s i b d f) kids
    else if n = "struct" then fillStruct (.mk l o s i b d f) kids
    else if n = "string" then .mk l o (if closed then textOf kids else s) i b d f
    else if n = "int" then .mk l o s (if closed then textOf kids else i) b d f
    else if n = "boolean" then .mk l o s i (if closed then textOf kids else b) d f
    else if n = "dateTime.iso8601" then .mk l o s i b (if closed then textOf kids else d) f
    else if n = "double" then .mk l o s i b d (if closed then textOf kids else f)
    else .mk l o s i b d f
/-- The children of an `array` element: the path `array>data>value` goes on through
`data`. -/
def fillArray : Value → List Node → Value
  | v, [] => v
  | v, kid :: rest => fillArray (fillArrayKid v kid) rest
/-- One child of an `array` element. -/
def fillArrayKid : Value → Node → Value
  | v, .text _ => v
  | v, .elem n _ kids => if n = "data" then fillData v kids else v
/-- The children of `array>data`. -/
def fillData : Value → List Node → Value
  | v, [] => v
  | v, kid :: rest => fillData (fillDataKid v kid) rest
/-- One child of `array>data`: a `value` grows `List` by one element, which is read from the
zero `Value`; an element whose reading fails is cut off again, which leaves the slice not
nil. -/
def fillDataKid : Value → Node → Value
  | v, .text _ => v
  | .mk l o s i b d f, .elem n closed kids =>
    if n = "value" then
      .mk (some (l.getD [] ++ (if closed then [fillValue Value.zero kids] else []))) o s i b d f
    else .mk l o s i b d f
/-- The children of a `struct` element. -/
def fillStruct : Value → List Node → Value
  | v, [] => v
  | v, kid :: rest => fillStruct (fillStructKid v kid) rest
/-- One child of a `struct` element: a `member` grows `Object` by one element, which is read
from the zero `Member`; an element whose reading fails is cut off again. -/
def fillStructKid : Value → Node → Value
  | v, .text _ => v
  | .mk l o s i b d f, .elem n closed kids =>
    if n = "member" then
      .mk l (some (o.getD [] ++ (if closed then [fillMember (.mk "" Value.zero) kids] else [])))
        s i b d f
    else .mk l o s i b d f
/-- `Decoder.unmarshal` into a `Member`, over the children of the element. -/
def fillMember : Member → List Node → Member
  | m, [] => m
  | m, kid :: rest => fillMember (fillMemberKid m kid) rest
/-- One child of a `member` element: `name` is a string field, `value` is read in place. -/
def fillMemberKid : Member → Node → Member
  | m, .text _ => m
  | .mk name value, .elem n closed kids =>
    if n = "name" then .mk (if closed then textOf kids else name) value
    else if n = "value" then .mk name (fillValue value kids)
    else .mk name value
end

/-- `Decoder.unmarshal` into a `Param`, over the children of the element. -/
def fillParam : Param → List Node → Param
  | p, [] => p
  | p, .text _ :: rest => fillParam p rest
  | p, .elem n _ kids :: rest =>
    if n = "value" then fillParam ⟨fillValue p.Value kids⟩ rest else fillParam p rest

/-- The children of a `params` element: every `param` that is read to its end grows
`Params` by one element. -/
def fillParams : MethodResponse → List Node → MethodResponse
  | r, [] => r
  | r, .text _ :: rest => fillParams r rest
  | r, .elem n closed kids :: rest =>
    if n = "param" then
      fillParams ⟨r.Params ++ (if closed then [fillParam ⟨Value.zero⟩ kids] else []), r.Fault⟩
        rest
    else fillParams r rest

/-- The children of a `fault` element: a `value` is read into `Fault` in place. -/
def fillFault : MethodResponse → List Node → MethodResponse
  | r, [] => r
  | r, .text _ :: rest => fillFault r rest
  | r, .elem n _ kids :: rest =>
    if n = "value" then fillFault ⟨r.Params, fillValue r.Fault kids⟩ rest else fillFault r rest

/-- `Decoder.unmarshal` into a `MethodResponse`, over the children of the root element. -/
def fillResponse : MethodResponse → List Node → MethodResponse
  | r, [] => r
  | r, .text _ :: rest => fillResponse r rest
  | r, .elem n _ kids :: rest =>
    if n = "params" then fillResponse (fillParams r kids) rest
    else if n = "fault" then fillResponse (fillFault r kids) rest
    else fillResponse r rest

/-- `xml.Unmarshal(text, &value)` for a zero `value` of type `Value`: what is left in
`value`, and whether an error is returned.  The name of the root element is not looked at.
`none` when the text leaves the fragment modelled. -/
def xmlUnmarshalValue (text : String) : Option (Value × Bool) :=
  match buildTree [] (lexText [] [] text.data) with
  | none => none
  | some none => some (Value.zero, true)
  | some (some (.text _)) => some (Value.zero, true)
  | some (some (.elem _ closed kids)) => some (fillValue Value.zero kids, !closed)

/-- `xml.Unmarshal(body, &response)` for a zero `response`: what is left in `response`, and
whether an error is returned.  `none` when the body leaves the fragment modelled. -/
def xmlUnmarshalResponse (body : String) : Option (MethodResponse × Bool) :=
  match buildTree [] (lexText [] [] body.data) with
  | none => none
  | some none => some (⟨[], Value.zero⟩, true)
  | some (some (.text _)) => some (⟨[], Value.zero⟩, true)
  | some (some (.elem _ closed kids)) => some (fillResponse ⟨[], Value.zero⟩ kids, !closed)

/-- The collaborators of `stubEnv` with the model of the reader as `xml.Unmarshal`; on a
body outside the fragment modelled the zero tree stands in. -/
def readerEnv : Env where
  formatFloat := fun _ _ => "0.000000"
  formatKey := fun _ => ""
  parseFloat := fun _ => 0
  parseTime := fun _ => ⟨0, 0⟩
  xmlUnmarshal := fun body =>
    match xmlUnmarshalResponse body with
    | some (response, _) => response
    | none => ⟨[], Value.zero⟩

/-! ## Plain texts and the tree of an emitted value -/

/-- A character that the reader hands on as it stands: none of `<`, `&` and carriage
return, and inside the character range of XML. -/
def plainChar (c : Char) : Bool :=
  c.toNat ≠ 60 && c.toNat ≠ 38 && c.toNat ≠ 13 && inCharacterRange c

/-- Some `>` of the text comes right after `]]`, `acc` being what stands before the text. -/
def closesSection : List Char → List Char → Bool
  | _, [] => false
  | acc, c :: cs =>
    (decide (c = '>') && [']', ']'].isSuffixOf acc) || closesSection (acc ++ [c]) cs

/-- A text that the reader hands on as it stands: plain characters, and no `]]>`. -/
def plainText (s : String) : Prop :=
  (∀ c ∈ s.data, plainChar c = true) ∧ closesSection [] s.data = false

instance (s : String) : Decidable (plainText s) := by
  unfold plainText; infer_instance

mutual
/-- Every text that `serialize` inserts verbatim for this value (a string, a map key, the
rendering of a floating value) is plain. -/
def GoValue.plain (env : Env) : GoValue → Prop
  | .str s => plainText s
  | .float k f => plainText (env.formatFloat k f)
  | .map m => plainEntries env m
  | .reflMap m => plainKeyed env m
  | .int _ _ => True
  | .nil => True
  | .bool _ => True
  | .time _ => True
  | .slice _ => True
  | .other _ => True
/-- The keys and values of a `map[string]interface{}` are plain. -/
def plainEntries (env : Env) : List (String × GoValue) → Prop
  | [] => True
  | (k, v) :: rest => plainText k ∧ GoValue.plain env v ∧ plainEntries env rest
/-- The rendered keys and the values of another mapping are plain. -/
def plainKeyed (env : Env) : List (GoValue × GoValue) → Prop
  | [] => True
  | (k, v) :: rest =>
    plainText (match k with | .str t => t | _ => env.formatKey k) ∧
      GoValue.plain env v ∧ plainKeyed env rest
end

/-- The children that a text leaves in its element: one run of character data, none for the
empty text. -/
def textKids (s : String) : List Node := if s = "" then [] else [.text s]

mutual
/-- The children of the `value` element that `serialize` writes for a value. -/
def valueKids (env : Env) : GoValue → List Node
  | .str s => [.elem "string" true (textKids s)]
  | .int _ n => [.elem "int" true (textKids (formatInt n))]
  | .float k f => [.elem "float" true (textKids (env.formatFloat k f))]
  | .map m => [.elem "struct" true (memberNodes env m)]
  | .reflMap m => [.elem "struct" true (keyedNodes env m)]
  | .nil => []
  | .bool _ => []
  | .time _ => []
  | .slice _ => []
  | .other _ => []
/-- The `member` elements written for the entries of a `map[string]interface{}`. -/
def memberNodes (env : Env) : List (String × GoValue) → List Node
  | [] => []
  | (k, v) :: rest =>
    .elem "member" true
        [.elem "name" true (textKids k), .elem "value" true (valueKids env v)]
      :: memberNodes env rest
/-- The `member` elements written for the entries of another mapping. -/
def keyedNodes (env : Env) : List (GoValue × GoValue) → List Node
  | [] => []
  | (k, v) :: rest =>
    .elem "member" true
        [.elem "name" true (textKids (match k with | .str t => t | _ => env.formatKey k)),
          .elem "value" true (valueKids env v)]
      :: keyedNodes env rest
end

/-- What `buildTree` does with an element that has just ended: it is the tree when no
element is open, and the last child of the innermost open element otherwise. -/
def deliver (stack : List (String × List Node)) (node : Node) (ts : List Token) :
    Option (Option Node) :=
  match stack with
  | [] => some (some node)
  | (m, sibs) :: below => buildTree ((m, sibs ++ [node]) :: below) ts


/-! # Theorems -/

/-! ## Decoding: the loops as list operations -/

theorem unserializeList_eq_map (env : Env) (xs : List Value) :
    unserializeList env xs = xs.map (unserialize env) := by
  induction xs with
  | nil => simp [unserializeList]
  | cons v vs ih => simp [unserializeList, ih]

theorem unserializeMembers_eq_foldl (env : Env) (ms : List Member)
    (acc : List (String × GoValue)) :
    unserializeMembers env ms acc
      = ms.foldl (fun r m => mapSet r m.name (unserialize env m.value)) acc := by
  induction ms generalizing acc with
  | nil => simp [unserializeMembers]
  | cons m ms ih =>
    cases m with
    | mk name value => simp [unserializeMembers, ih, Member.name, Member.value]

theorem unserialize_ne_nil_of_populated (env : Env) (v : Value) (h : v.populated) :
    unserialize env v ≠ .nil := by
  cases v with
  | mk l o s i b d f =>
    cases l with
    | some xs => simp [unserialize]
    | none =>
      cases o with
      | some ms => simp [unserialize]
      | none =>
        simp only [Value.populated, Value.list, Value.object, Value.string, Value.int,
          Value.boolean, Value.dateTime, Value.double, ne_eq, not_true_eq_false, false_or] at h
        simp only [unserialize]
        split_ifs <;> simp_all

/-- C1: `unserialize` takes the first populated field in the order array, struct, string,
int, boolean, dateTime, double, and is nil when no field is populated; in each case the
result is a function of that field alone, whatever the later fields hold. -/
theorem unserialize_first_populated (env : Env) :
    (∀ xs o s i b d f,
        unserialize env (.mk (some xs) o s i b d f) = .slice (xs.map (unserialize env))) ∧
    (∀ ms s i b d f,
        unserialize env (.mk none (some ms) s i b d f)
          = .map (ms.foldl (fun r m => mapSet r m.name (unserialize env m.value)) [])) ∧
    (∀ s i b d f, s ≠ "" → unserialize env (.mk none none s i b d f) = .str s) ∧
    (∀ i b d f, i ≠ "" →
        unserialize env (.mk none none "" i b d f) = .int .int (Atoi i).1) ∧
    (∀ b d f, b ≠ "" → unserialize env (.mk none none "" "" b d f) = .bool (b == "1")) ∧
    (∀ d f, d ≠ "" →
        unserialize env (.mk none none "" "" "" d f) = .time (env.parseTime d)) ∧
    (∀ f, f ≠ "" →
        unserialize env (.mk none none "" "" "" "" f) = .float .float64 (env.parseFloat f)) ∧
    unserialize env (.mk none none "" "" "" "" "") = .nil := by
  refine ⟨?_, ?_, ?_, ?_, ?_, ?_, ?_, ?_⟩
  · intro xs o s i b d f
    simp [unserialize, unserializeList_eq_map]
  · intro ms s i b d f
    simp [unserialize, unserializeMembers_eq_foldl]
  · intro s i b d f hs
    simp [unserialize, hs]
  · intro i b d f hi
    simp [unserialize, hi]
  · intro b d f hb
    simp [unserialize, hb]
  · intro d f hd
    simp [unserialize, hd]
  · intro f hf
    simp [unserialize, hf]
  · simp [unserialize]

/-- C1, the two examples of the claim: string "x" with int "5" decodes to the string "x",
and one member with string "x" decodes to a mapping. -/
theorem unserialize_first_populated_witness :
    unserialize (stubEnv ⟨[], Value.zero⟩) (.mk none none "x" "5" "" "" "") = .str "x" ∧
    unserialize (stubEnv ⟨[], Value.zero⟩)
        (.mk none (some [.mk "k" (intValue "7")]) "x" "" "" "" "")
      = .map [("k", .int .int 7)] :=
  ⟨(unserialize_first_populated (stubEnv ⟨[], Value.zero⟩)).2.2.1 "x" "5" "" "" "" (by decide),
   (unserialize_first_populated (stubEnv ⟨[], Value.zero⟩)).2.1 [.mk "k" (intValue "7")]
      "x" "" "" "" ""⟩

/-- C6, amended: with a nil array slice, a nil member slice, empty string and int texts and
a boolean text that is not empty, `unserialize` returns the boolean `b == "1"`. -/
theorem unserialize_boolean (env : Env) (b d f : String) (hb : b ≠ "") :
    unserialize env (.mk none none "" "" b d f) = .bool (b == "1") := by
  simp [unserialize, hb]

/-- C6, amended, at the texts "1", "0" and "true". -/
theorem unserialize_boolean_witness :
    unserialize (stubEnv ⟨[], Value.zero⟩) (.mk none none "" "" "1" "" "") = .bool true ∧
    unserialize (stubEnv ⟨[], Value.zero⟩) (.mk none none "" "" "0" "" "") = .bool false ∧
    unserialize (stubEnv ⟨[], Value.zero⟩) (.mk none none "" "" "true" "" "") = .bool false :=
  ⟨unserialize_boolean _ "1" "" "" (by decide), unserialize_boolean _ "0" "" "" (by decide),
   unserialize_boolean _ "true" "" "" (by decide)⟩

/-- C6 as stated fails on a wire value whose array is a slice of length zero that is not
nil: array, struct, string and int hold nothing and the boolean text is "1", yet the result
is an empty sequence; likewise for a member slice of length zero, which gives an empty
mapping. -/
theorem unserialize_boolean_empty_slice_counterexample :
    (Value.mk (some []) none "" "" "1" "" "").list = some [] ∧
    unserialize (stubEnv ⟨[], Value.zero⟩) (.mk (some []) none "" "" "1" "" "") = .slice [] ∧
    unserialize (stubEnv ⟨[], Value.zero⟩) (.mk (some []) none "" "" "1" "" "")
      ≠ .bool ("1" == "1") ∧
    (Value.mk none (some []) "" "" "1" "" "").object = some [] ∧
    unserialize (stubEnv ⟨[], Value.zero⟩) (.mk none (some []) "" "" "1" "" "") = .map [] ∧
    unserialize (stubEnv ⟨[], Value.zero⟩) (.mk none (some []) "" "" "1" "" "")
      ≠ .bool ("1" == "1") := by
  have h1 : unserialize (stubEnv ⟨[], Value.zero⟩) (.mk (some []) none "" "" "1" "" "")
      = .slice [] := rfl
  have h2 : unserialize (stubEnv ⟨[], Value.zero⟩) (.mk none (some []) "" "" "1" "" "")
      = .map [] := rfl
  refine ⟨rfl, h1, ?_, rfl, h2, ?_⟩
  · rw [h1]; exact fun h => GoValue.noConfusion h
  · rw [h2]; exact fun h => GoValue.noConfusion h

/-- C7: the wire value with int text "0" and every other field empty decodes to the integer
0, which is not nil. -/
theorem unserialize_int_zero (env : Env) :
    unserialize env (intValue "0") = .int .int 0 ∧ unserialize env (intValue "0") ≠ .nil := by
  have h : unserialize env (intValue "0") = .int .int 0 := by
    have h0 : Atoi "0" = (0, none) := by decide
    simp [intValue, unserialize, h0]
  exact ⟨h, by simp [h]⟩


/-! ## Encoding: failure of the loops -/

theorem serializeParams_eq_none_iff (env : Env) (params : List GoValue) (request : String) :
    serializeParams env params request = none ↔ ∃ v ∈ params, serialize env v = none := by
  induction params generalizing request with
  | nil => simp [serializeParams]
  | cons v rest ih =>
    cases hv : serialize env v with
    | none => simp [serializeParams, hv]
    | some s => simp [serializeParams, hv, ih]

mutual
theorem serialize_eq_none_iff (env : Env) :
    ∀ v : GoValue, serialize env v = none ↔ ∃ u ∈ v.nested, u.accepted = false
  | .nil => by simp [serialize, GoValue.nested, GoValue.accepted]
  | .str s => by simp [serialize, GoValue.nested, GoValue.accepted]
  | .int k n => by simp [serialize, GoValue.nested, GoValue.accepted]
  | .float k f => by simp [serialize, GoValue.nested, GoValue.accepted]
  | .bool b => by simp [serialize, GoValue.nested, GoValue.accepted]
  | .time t => by simp [serialize, GoValue.nested, GoValue.accepted]
  | .slice xs => by simp [serialize, GoValue.nested, GoValue.accepted]
  | .other d => by simp [serialize, GoValue.nested, GoValue.accepted]
  | .map m => by
    have ih := serializeEntries_eq_none_iff env m ("<value>" ++ "<struct>")
    simp only [serialize, GoValue.nested]
    cases hm : serializeEntries env m ("<value>" ++ "<struct>") with
    | none =>
      obtain ⟨u, hu, hacc⟩ := ih.mp hm
      exact ⟨fun _ => ⟨u, List.mem_cons_of_mem _ hu, hacc⟩, fun _ => rfl⟩
    | some r =>
      refine ⟨fun h => by simp at h, ?_⟩
      rintro ⟨u, hu, hacc⟩
      rcases List.mem_cons.mp hu with rfl | hu
      · simp [GoValue.accepted] at hacc
      · have := ih.mpr ⟨u, hu, hacc⟩
        rw [hm] at this
        simp at this
  | .reflMap m => by
    have ih := serializeKeyed_eq_none_iff env m ("<value>" ++ "<struct>")
    simp only [serialize, GoValue.nested]
    cases hm : serializeKeyed env m ("<value>" ++ "<struct>") with
    | none =>
      obtain ⟨u, hu, hacc⟩ := ih.mp hm
      exact ⟨fun _ => ⟨u, List.mem_cons_of_mem _ hu, hacc⟩, fun _ => rfl⟩
    | some r =>
      refine ⟨fun h => by simp at h, ?_⟩
      rintro ⟨u, hu, hacc⟩
      rcases List.mem_cons.mp hu with rfl | hu
      · simp [GoValue.accepted] at hacc
      · have := ih.mpr ⟨u, hu, hacc⟩
        rw [hm] at this
        simp at this
theorem serializeEntries_eq_none_iff (env : Env) :
    ∀ (m : List (String × GoValue)) (result : String),
      serializeEntries env m result = none ↔ ∃ u ∈ nestedEntries m, u.accepted = false
  | [], result => by simp [serializeEntries, nestedEntries]
  | (k, v) :: rest, result => by
    have ihv := serialize_eq_none_iff env v
    cases hv : serialize env v with
    | none =>
      obtain ⟨u, hu, hacc⟩ := ihv.mp hv
      simp only [serializeEntries, hv, nestedEntries, List.mem_append, true_iff]
      exact ⟨u, Or.inl hu, hacc⟩
    | some s =>
      have hno : ¬ ∃ u ∈ v.nested, u.accepted = false := by
        intro h; rw [← ihv, hv] at h; exact absurd h (by simp)
      have ihr := serializeEntries_eq_none_iff env rest
        (result ++ "<member>" ++ ("<name>" ++ k ++ "</name>") ++ s ++ "</member>")
      simp only [serializeEntries, hv, nestedEntries, List.mem_append, ihr]
      constructor
      · rintro ⟨u, hu, hacc⟩; exact ⟨u, Or.inr hu, hacc⟩
      · rintro ⟨u, hu | hu, hacc⟩
        · exact absurd ⟨u, hu, hacc⟩ hno
        · exact ⟨u, hu, hacc⟩
theorem serializeKeyed_eq_none_iff (env : Env) :
    ∀ (m : List (GoValue × GoValue)) (result : String),
      serializeKeyed env m result = none ↔ ∃ u ∈ nestedKeyed m, u.accepted = false
  | [], result => by simp [serializeKeyed, nestedKeyed]
  | (k, v) :: rest, result => by
    have ihv := serialize_eq_none_iff env v
    cases hv : serialize env v with
    | none =>
      obtain ⟨u, hu, hacc⟩ := ihv.mp hv
      simp only [serializeKeyed, hv, nestedKeyed, List.mem_append, true_iff]
      exact ⟨u, Or.inl hu, hacc⟩
    | some s =>
      have hno : ¬ ∃ u ∈ v.nested, u.accepted = false := by
        intro h; rw [← ihv, hv] at h; exact absurd h (by simp)
      have ihr := serializeKeyed_eq_none_iff env rest
        (result ++ "<member>"
          ++ ("<name>" ++ (match k with | .str t => t | _ => env.formatKey k) ++ "</name>")
          ++ s ++ "</member>")
      simp only [serializeKeyed, hv, nestedKeyed, List.mem_append, ihr]
      constructor
      · rintro ⟨u, hu, hacc⟩; exact ⟨u, Or.inr hu, hacc⟩
      · rintro ⟨u, hu | hu, hacc⟩
        · exact absurd ⟨u, hu, hacc⟩ hno
        · exact ⟨u, hu, hacc⟩
end

theorem serialize_isSome_of_supported (env : Env) (v : GoValue) (h : v.supported) :
    ∃ t, serialize env v = some t := by
  cases hv : serialize env v with
  | some t => exact ⟨t, rfl⟩
  | none =>
    obtain ⟨u, hu, hacc⟩ := (serialize_eq_none_iff env v).mp hv
    have := h u hu
    simp [hacc] at this

/-- C8: `serialize` exits through `log.Fatal` exactly when the value, or a value nested at
any depth in a mapping being serialized, is not a string, an integer of a listed type, a
floating value or a mapping; booleans, timestamps, nil and sequences are rejected; and
`Serialize` exits as soon as one parameter does. -/
theorem serialize_fatal_iff (env : Env) :
    (∀ v : GoValue, serialize env v = none ↔ ∃ u ∈ v.nested, u.accepted = false) ∧
    (∀ b, serialize env (.bool b) = none) ∧ (∀ t, serialize env (.time t) = none) ∧
    serialize env .nil = none ∧ (∀ xs, serialize env (.slice xs) = none) ∧
    (∀ method params, (∃ v ∈ params, serialize env v = none) →
      Serialize env method params = none) := by
  refine ⟨serialize_eq_none_iff env, ?_, ?_, ?_, ?_, ?_⟩
  · intro b; simp [serialize]
  · intro t; simp [serialize]
  · simp [serialize]
  · intro xs; simp [serialize]
  · intro method params h
    have := (serializeParams_eq_none_iff env params
      ("<methodCall>" ++ ("<methodName>" ++ method ++ "</methodName>") ++ "<params>")).mpr h
    simp [Serialize, this]

/-- C8 on a mapping that holds a boolean two levels down, and on a parameter list with a
nil parameter. -/
theorem serialize_fatal_iff_witness :
    serialize (stubEnv ⟨[], Value.zero⟩)
        (.map [("a", .int .int 1), ("b", .reflMap [(.str "c", .bool true)])]) = none ∧
    Serialize (stubEnv ⟨[], Value.zero⟩) "m" [.str "x", .nil] = none :=
  ⟨((serialize_fatal_iff (stubEnv ⟨[], Value.zero⟩)).1 _).mpr
      ⟨.bool true, by simp [GoValue.nested, nestedEntries, nestedKeyed], rfl⟩,
   (serialize_fatal_iff (stubEnv ⟨[], Value.zero⟩)).2.2.2.2.2 "m" [.str "x", .nil]
      ⟨.nil, by simp, rfl⟩⟩


/-! ## Encoding: the envelope -/

theorem join_cons (t : String) (ts : List String) :
    String.join (t :: ts) = t ++ String.join ts := by
  apply String.ext
  simp [String.join_eq]

theorem serializeParams_eq_some (env : Env) (params : List GoValue) (texts : List String)
    (h : List.Forall₂ (fun v t => serialize env v = some t) params texts) (request : String) :
    serializeParams env params request
      = some (request ++ String.join (texts.map (fun t => "<param>" ++ t ++ "</param>"))) := by
  induction h generalizing request with
  | nil => simp [serializeParams, String.join]
  | cons hv _ ih =>
    simp only [serializeParams, hv, ih, List.map_cons, join_cons, String.append_assoc]

theorem forall₂_serialize_of_supported (env : Env) (params : List GoValue)
    (h : ∀ v ∈ params, v.supported) :
    ∃ texts, List.Forall₂ (fun v t => serialize env v = some t) params texts := by
  induction params with
  | nil => exact ⟨[], List.Forall₂.nil⟩
  | cons v rest ih =>
    obtain ⟨t, ht⟩ := serialize_isSome_of_supported env v (h v (List.mem_cons_self _ _))
    obtain ⟨ts, hts⟩ := ih (fun u hu => h u (List.mem_cons_of_mem _ hu))
    exact ⟨t :: ts, List.Forall₂.cons ht hts⟩

/-- C2: for parameters that are all supported, `Serialize` returns the method-call envelope
around one `<param>` element per parameter, each holding the text `serialize` gives for that
parameter, in input order; for no parameter the params section is `<params></params>`. -/
theorem Serialize_envelope (env : Env) (method : String) (params : List GoValue)
    (h : ∀ v ∈ params, v.supported) :
    (∃ texts, List.Forall₂ (fun v t => serialize env v = some t) params texts ∧
      Serialize env method params
        = some ("<methodCall><methodName>" ++ method ++ "</methodName><params>"
            ++ String.join (texts.map (fun t => "<param>" ++ t ++ "</param>"))
            ++ "</params></methodCall>")) ∧
    Serialize env method []
      = some ("<methodCall><methodName>" ++ method
          ++ "</methodName><params></params></methodCall>") := by
  have e1 : "<methodCall><methodName>" = "<methodCall>" ++ "<methodName>" := by decide
  have e2 : "</methodName><params>" = "</methodName>" ++ "<params>" := by decide
  have e3 : "</methodName><params></params></methodCall>"
      = "</methodName>" ++ ("<params>" ++ "</params></methodCall>") := by decide
  constructor
  · obtain ⟨texts, ht⟩ := forall₂_serialize_of_supported env params h
    refine ⟨texts, ht, ?_⟩
    simp only [Serialize, serializeParams_eq_some env params texts ht, e1, e2,
      String.append_assoc]
  · simp only [Serialize, serializeParams, e1, e3, String.append_assoc]

/-- C2 on the call `add(2, 3)`. -/
theorem Serialize_envelope_witness :
    (∀ v ∈ [GoValue.int .int 2, GoValue.int .int 3], v.supported) ∧
    (∃ texts,
      List.Forall₂ (fun v t => serialize (stubEnv sumResponse) v = some t)
        [GoValue.int .int 2, GoValue.int .int 3] texts ∧
      Serialize (stubEnv sumResponse) "add" [.int .int 2, .int .int 3]
        = some ("<methodCall><methodName>" ++ "add" ++ "</methodName><params>"
            ++ String.join (texts.map (fun t => "<param>" ++ t ++ "</param>"))
            ++ "</params></methodCall>")) ∧
    Serialize (stubEnv sumResponse) "add" [.int .int 2, .int .int 3]
      = some ("<methodCall><methodName>add</methodName><params>"
          ++ "<param><value><int>2</int></value></param>"
          ++ "<param><value><int>3</int></value></param>" ++ "</params></methodCall>") :=
  have hs : ∀ v ∈ [GoValue.int .int 2, GoValue.int .int 3], v.supported := by
    intro v hv
    simp only [List.mem_cons, List.mem_singleton, List.not_mem_nil, or_false] at hv
    rcases hv with rfl | rfl <;> simp [GoValue.supported, GoValue.nested, GoValue.accepted]
  ⟨hs, (Serialize_envelope (stubEnv sumResponse) "add" [.int .int 2, .int .int 3] hs).1, rfl⟩

/-! ## The response and the call -/

/-- C3: once the body is read and parsed into a tree, `Unserialize` returns one result per
param, the i-th being `unserialize` of the i-th param value, together with `unserialize` of
the fault value and a nil error; with params and a populated fault both come back, the
results not empty and the fault not nil; without params the results are empty. -/
theorem Unserialize_results_and_fault (env : Env) (buffer : ReadCloser) (body : String)
    (response : MethodResponse) (hread : buffer.readAll = .ok body)
    (hparse : env.xmlUnmarshal body = response) :
    ∃ results : List GoValue,
      Unserialize env buffer = (some results, unserialize env response.Fault, none) ∧
      results.length = response.Params.length ∧
      (∀ (i : Nat) (hi : i < response.Params.length),
        results[i]? = some (unserialize env (response.Params.get ⟨i, hi⟩).Value)) ∧
      (response.Params ≠ [] → response.Fault.populated →
        results ≠ [] ∧ unserialize env response.Fault ≠ .nil) ∧
      (response.Params = [] → results = []) := by
  refine ⟨response.Params.map (fun param => unserialize env param.Value), ?_, ?_, ?_, ?_, ?_⟩
  · simp [Unserialize, hread, hparse]
  · simp
  · intro i hi
    simp [List.getElem?_map, List.getElem?_eq_getElem hi]
  · intro hp hf
    exact ⟨by simpa using hp, unserialize_ne_nil_of_populated env _ hf⟩
  · intro hp
    simp [hp]

/-- C3 on the fault-only response `{faultCode: 1, faultString: "bad"}`: the results are the
empty sequence and the fault is the decoded mapping. -/
theorem Unserialize_results_and_fault_witness :
    (ReadCloser.mk (.ok "")).readAll = .ok "" ∧
    (stubEnv faultOnlyResponse).xmlUnmarshal "" = faultOnlyResponse ∧
    (∃ results : List GoValue,
      Unserialize (stubEnv faultOnlyResponse) ⟨.ok ""⟩
        = (some results, unserialize (stubEnv faultOnlyResponse) faultOnlyResponse.Fault, none) ∧
      results.length = faultOnlyResponse.Params.length) ∧
    Unserialize (stubEnv faultOnlyResponse) ⟨.ok ""⟩
      = (some [], .map [("faultCode", .int .int 1), ("faultString", .str "bad")], none) :=
  ⟨rfl, rfl,
   (Unserialize_results_and_fault (stubEnv faultOnlyResponse) ⟨.ok ""⟩ "" faultOnlyResponse
      rfl rfl).imp (fun _ hr => ⟨hr.1, hr.2.1⟩),
   rfl⟩

/-- C10: `Request` posts the text of `Serialize` with content type `text/xml`, once; on a
transport error it returns nil results, nil fault, the empty text and that error, the body
never being touched; when the transport succeeds and the body is read it returns the results
and the fault of `Unserialize`, the request text and a nil error. -/
theorem Request_transport (env : Env)
    (httpPost : String → String → String → Except GoError ReadCloser)
    (url method : String) (params : List GoValue) (request : String)
    (hser : Serialize env method params = some request) :
    (∃ out evs, Request env httpPost url method params = some (out, evs) ∧
      evs.filter (fun e => e ≠ Event.close) = [Event.post url "text/xml" request]) ∧
    (∀ e, httpPost url "text/xml" request = .error e →
      Request env httpPost url method params
        = some (⟨none, .nil, "", some e⟩, [.post url "text/xml" request])) ∧
    (∀ body text, httpPost url "text/xml" request = .ok body → body.readAll = .ok text →
      Request env httpPost url method params
        = some (⟨(Unserialize env body).1, (Unserialize env body).2.1, request, none⟩,
            [.post url "text/xml" request, .close])) := by
  refine ⟨?_, ?_, ?_⟩
  · cases hp : httpPost url "text/xml" request with
    | error e =>
      refine ⟨_, _, by simp only [Request, hser, hp]; rfl, ?_⟩
      simp [List.filter]
    | ok body =>
      cases hu : Unserialize env body with
      | mk resp rest =>
        cases rest with
        | mk fault err =>
          cases err with
          | none =>
            refine ⟨_, _, by simp only [Request, hser, hp, hu]; rfl, ?_⟩
            simp [List.filter]
          | some e =>
            refine ⟨_, _, by simp only [Request, hser, hp, hu]; rfl, ?_⟩
            simp [List.filter]
  · intro e hp
    simp only [Request, hser, hp]
  · intro body text hp hread
    have hu : Unserialize env body
        = (some ((env.xmlUnmarshal text).Params.map (fun param => unserialize env param.Value)),
            unserialize env (env.xmlUnmarshal text).Fault, none) := by
      simp [Unserialize, hread]
    simp only [Request, hser, hp, hu]

/-- C10 on the call `add(2, 3)` answered by a body that decodes to the single param
`<int>5</int>`: results `[5]`, nil fault, nil error. -/
theorem Request_transport_witness :
    Serialize (stubEnv sumResponse) "add" [.int .int 2, .int .int 3]
      = some ("<methodCall><methodName>add</methodName><params>"
          ++ "<param><value><int>2</int></value></param>"
          ++ "<param><value><int>3</int></value></param></params></methodCall>") ∧
    Request (stubEnv sumResponse) (fun _ _ _ => .ok ⟨.ok "body"⟩) "http://host/rpc" "add"
        [.int .int 2, .int .int 3]
      = some (⟨some [.int .int 5], .nil,
            "<methodCall><methodName>add</methodName><params>"
              ++ "<param><value><int>2</int></value></param>"
              ++ "<param><value><int>3</int></value></param></params></methodCall>", none⟩,
          [.post "http://host/rpc" "text/xml"
            ("<methodCall><methodName>add</methodName><params>"
              ++ "<param><value><int>2</int></value></param>"
              ++ "<param><value><int>3</int></value></param></params></methodCall>"), .close]) :=
  ⟨rfl,
   (Request_transport (stubEnv sumResponse) (fun _ _ _ => .ok ⟨.ok "body"⟩) "http://host/rpc"
      "add" [.int .int 2, .int .int 3] _ rfl).2.2 ⟨.ok "body"⟩ "body" rfl rfl⟩


/-! ## Integers: `%d` followed by `strconv.Atoi` -/

theorem digitChar_toNat : ∀ m, m < 10 → (Nat.digitChar m).toNat = 48 + m := by
  decide

theorem parseUintLoop_digit (m : Nat) (hm : m < 10) (cs : List Char) (n : Nat)
    (hn : n * 10 + m < 2 ^ 64) :
    parseUintLoop (Nat.digitChar m :: cs) n = parseUintLoop cs (n * 10 + m) := by
  have hc := digitChar_toNat m hm
  have h1 : 48 ≤ (Nat.digitChar m).toNat ∧ (Nat.digitChar m).toNat ≤ 57 := by omega
  have h2 : ¬ n ≥ maxUint64 / 10 + 1 := by
    simp only [maxUint64]; omega
  have h3 : (n * 10) % 2 ^ 64 = n * 10 := Nat.mod_eq_of_lt (by omega)
  have h4 : (n * 10 + m) % 2 ^ 64 = n * 10 + m := Nat.mod_eq_of_lt hn
  have h5 : ¬ (n * 10 + m < n * 10 ∨ n * 10 + m > maxUint64) := by
    simp only [maxUint64]; omega
  have h1' : 48 ≤ 48 + m ∧ 48 + m ≤ 57 := by omega
  simp only [parseUintLoop, if_pos h1, if_neg h2, hc, Nat.add_sub_cancel_left, h3, h4,
    if_neg h5, if_pos h1']

theorem parseUintLoop_toDigitsCore (fuel : Nat) :
    ∀ (n : Nat) (ds : List Char), n < fuel → n < 2 ^ 64 →
      parseUintLoop (Nat.toDigitsCore 10 fuel n ds) 0 = parseUintLoop ds n := by
  induction fuel with
  | zero => intro n ds h; omega
  | succ fuel ih =>
    intro n ds hfuel hn
    have hmod : n % 10 < 10 := Nat.mod_lt _ (by decide)
    by_cases hq : n / 10 = 0
    · have hsmall : n % 10 = n := by omega
      simp only [Nat.toDigitsCore, hq, if_true]
      rw [parseUintLoop_digit (n % 10) hmod ds 0 (by omega)]
      simp [hsmall]
    · simp only [Nat.toDigitsCore, hq, if_false]
      rw [ih (n / 10) _ (by omega) (by omega),
        parseUintLoop_digit (n % 10) hmod ds (n / 10) (by omega)]
      congr 1
      omega

theorem parseUintLoop_toDigits (n : Nat) (hn : n < 2 ^ 64) :
    parseUintLoop (Nat.toDigits 10 n) 0 = (n, none) := by
  simp only [Nat.toDigits]
  rw [parseUintLoop_toDigitsCore (n + 1) n [] (by omega) hn]
  rfl

theorem toDigits_ne_nil (n : Nat) (hn : n < 2 ^ 64) : Nat.toDigits 10 n ≠ [] := by
  intro h
  have hp := parseUintLoop_toDigits n hn
  rw [h] at hp
  have h0 : n = 0 := by
    simp only [parseUintLoop, Prod.mk.injEq, and_true] at hp
    exact hp.symm
  subst h0
  exact absurd h (by decide)

theorem parseUintLoop_head_digit (c : Char) (cs : List Char) (n : Nat)
    (h : parseUintLoop (c :: cs) 0 = (n, none)) : 48 ≤ c.toNat ∧ c.toNat ≤ 57 := by
  by_contra hc
  simp [parseUintLoop, hc] at h

theorem ParseInt_of_digits (l : List Char) (n : Nat) (hl : l ≠ [])
    (hp : parseUintLoop l 0 = (n, none)) :
    (n < 2 ^ 63 → ParseInt l = ((n : Int), none)) ∧
    (n ≤ 2 ^ 63 → ParseInt ('-' :: l) = (-(n : Int), none)) := by
  constructor
  · intro hn
    cases l with
    | nil => exact absurd rfl hl
    | cons c cs =>
      have hd := parseUintLoop_head_digit c cs n hp
      have hplus : c ≠ '+' := by
        intro hc; rw [hc] at hd; exact absurd hd (by decide)
      have hminus : c ≠ '-' := by
        intro hc; rw [hc] at hd; exact absurd hd (by decide)
      have hge : ¬ n ≥ 2 ^ 63 := by omega
      simp [ParseInt, ParseUint, hplus, hminus, hp, hge]
      omega
  · intro hn
    have hgt : ¬ n > 2 ^ 63 := by omega
    simp [ParseInt, ParseUint, hl, hp, hgt]
    omega

theorem Atoi_formatInt (n : Int) (hlo : -(2 ^ 63) ≤ n) (hhi : n ≤ 2 ^ 63 - 1) :
    Atoi (formatInt n) = (n, none) := by
  cases n with
  | ofNat m =>
    have hm : m < 2 ^ 63 := by
      have : (m : Int) ≤ 2 ^ 63 - 1 := hhi
      omega
    have := (ParseInt_of_digits (Nat.toDigits 10 m) m (toDigits_ne_nil m (by omega))
      (parseUintLoop_toDigits m (by omega))).1 hm
    simpa [Atoi, formatInt] using this
  | negSucc m =>
    have hm : m + 1 ≤ 2 ^ 63 := by
      have : -(2 ^ 63 : Int) ≤ Int.negSucc m := hlo
      rw [Int.negSucc_eq] at this
      omega
    have := (ParseInt_of_digits (Nat.toDigits 10 (m + 1)) (m + 1)
      (toDigits_ne_nil (m + 1) (by omega)) (parseUintLoop_toDigits (m + 1) (by omega))).2 hm
    have hd : ("-" ++ String.mk (Nat.toDigits 10 (m + 1))).data
        = '-' :: Nat.toDigits 10 (m + 1) := rfl
    rw [Atoi, formatInt, hd, this, Int.negSucc_eq]
    simp

theorem formatInt_ne_empty (n : Int) (hlo : -(2 ^ 63) ≤ n) (hhi : n ≤ 2 ^ 63 - 1) :
    formatInt n ≠ "" := by
  intro h
  have := Atoi_formatInt n hlo hhi
  rw [h] at this
  have h0 : Atoi "" = (0, some .invalid) := by decide
  rw [h0] at this
  simp at this

/-- C4, amended: for an integer of a listed type whose value is not zero and fits the
signed 64-bit `int` that the decoder produces, `serialize` emits the decimal text of the
integer between the `<int>` tags, and the wire value holding that text alone decodes to the
integer. -/
theorem unserialize_serialize_int (env : Env) (k : IntKind) (n : Int) (hk : k.holds n)
    (_hn : n ≠ 0) (hfit : n ≤ 2 ^ 63 - 1) :
    serialize env (.int k n) = some ("<value><int>" ++ formatInt n ++ "</int></value>") ∧
    unserialize env (intValue (formatInt n)) = .int .int n := by
  have hlo : -(2 ^ 63) ≤ n := by
    have h1 := hk.1
    cases k <;> simp only [IntKind.minVal] at h1 <;> omega
  have e1 : "<value><int>" = "<value>" ++ "<int>" := by decide
  have e2 : "</int></value>" = "</int>" ++ "</value>" := by decide
  constructor
  · simp only [serialize, e1, e2, String.append_assoc]
  · simp [intValue, unserialize, formatInt_ne_empty n hlo hfit, Atoi_formatInt n hlo hfit]

/-- C4, amended, at the `int8` value -128. -/
theorem unserialize_serialize_int_witness :
    IntKind.int8.holds (-128) ∧ (-128 : Int) ≠ 0 ∧ (-128 : Int) ≤ 2 ^ 63 - 1 ∧
    serialize (stubEnv sumResponse) (.int .int8 (-128))
      = some ("<value><int>" ++ formatInt (-128) ++ "</int></value>") ∧
    unserialize (stubEnv sumResponse) (intValue (formatInt (-128))) = .int .int (-128) :=
  ⟨by decide, by decide, by decide,
   unserialize_serialize_int (stubEnv sumResponse) .int8 (-128) (by decide) (by decide)
    (by decide)⟩

/-- C4 as stated fails at the largest `uint64`: its decimal text decodes to the largest
`int`, which is a different integer. -/
theorem unserialize_serialize_uint64_counterexample :
    IntKind.uint64.holds 18446744073709551615 ∧ (18446744073709551615 : Int) ≠ 0 ∧
    serialize (stubEnv sumResponse) (.int .uint64 18446744073709551615)
      = some "<value><int>18446744073709551615</int></value>" ∧
    unserialize (stubEnv sumResponse) (intValue "18446744073709551615")
      = .int .int 9223372036854775807 ∧
    unserialize (stubEnv sumResponse) (intValue "18446744073709551615")
      ≠ .int .int 18446744073709551615 := by
  refine ⟨by decide, by decide, rfl, rfl, ?_⟩
  have h : unserialize (stubEnv sumResponse) (intValue "18446744073709551615")
      = .int .int 9223372036854775807 := rfl
  rw [h]
  intro hc
  injection hc with _ hv
  exact absurd hv (by decide)


/-! ## Maps: assignment and lookup -/

theorem mem_mapKeys_mapSet (m : List (String × GoValue)) (k : String) (v : GoValue)
    (k' : String) : k' ∈ mapKeys (mapSet m k v) ↔ k' = k ∨ k' ∈ mapKeys m := by
  induction m with
  | nil => simp [mapSet, mapKeys]
  | cons p rest ih =>
    obtain ⟨k0, v0⟩ := p
    by_cases h : k0 = k
    · subst h
      simp [mapSet, mapKeys]
    · simp only [mapKeys] at ih
      simp only [mapSet, h, if_false, mapKeys, List.map_cons, List.mem_cons, ih]
      tauto

theorem nodup_mapKeys_mapSet (m : List (String × GoValue)) (k : String) (v : GoValue)
    (h : (mapKeys m).Nodup) : (mapKeys (mapSet m k v)).Nodup := by
  induction m with
  | nil => simp [mapSet, mapKeys]
  | cons p rest ih =>
    obtain ⟨k0, v0⟩ := p
    have hcons : k0 ∉ mapKeys rest ∧ (mapKeys rest).Nodup := by
      simpa [mapKeys] using h
    by_cases hk : k0 = k
    · subst hk
      simpa [mapSet, mapKeys] using h
    · have hnot : k0 ∉ mapKeys (mapSet rest k v) := by
        rw [mem_mapKeys_mapSet]
        exact fun hc => hc.elim hk hcons.1
      have := ih hcons.2
      simp only [mapKeys] at this hnot
      simp [mapSet, hk, mapKeys, this, hnot]

theorem mapGet_mapSet (m : List (String × GoValue)) (k : String) (v : GoValue) (k' : String) :
    mapGet (mapSet m k v) k' = if k = k' then some v else mapGet m k' := by
  induction m with
  | nil => simp [mapSet, mapGet]
  | cons p rest ih =>
    obtain ⟨k0, v0⟩ := p
    by_cases h : k0 = k
    · subst h
      by_cases h' : k0 = k' <;> simp [mapSet, mapGet, h']
    · by_cases h' : k0 = k'
      · subst h'
        simp [mapSet, mapGet, h, Ne.symm h]
      · simp [mapSet, mapGet, h, h', ih]

theorem lastNamed_cons (m : Member) (ms : List Member) (k : String) :
    lastNamed (m :: ms) k
      = (lastNamed ms k).or (if m.name = k then some m.value else none) := by
  have hsplit : m :: ms = [m] ++ ms := rfl
  simp only [lastNamed]
  rw [hsplit, List.filter_append, List.getLast?_append]
  by_cases h : m.name = k
  · cases (List.filter (fun m => decide (m.name = k)) ms).getLast? <;> simp [List.filter, h]
  · cases (List.filter (fun m => decide (m.name = k)) ms).getLast? <;> simp [List.filter, h]

theorem mem_mapKeys_foldl (env : Env) (ms : List Member) (acc : List (String × GoValue))
    (k : String) :
    k ∈ mapKeys (ms.foldl (fun r m => mapSet r m.name (unserialize env m.value)) acc)
      ↔ k ∈ ms.map Member.name ∨ k ∈ mapKeys acc := by
  induction ms generalizing acc with
  | nil => simp
  | cons m ms ih =>
    simp only [List.foldl_cons, ih, mem_mapKeys_mapSet, List.map_cons, List.mem_cons]
    tauto

theorem nodup_mapKeys_foldl (env : Env) (ms : List Member) (acc : List (String × GoValue))
    (h : (mapKeys acc).Nodup) :
    (mapKeys (ms.foldl (fun r m => mapSet r m.name (unserialize env m.value)) acc)).Nodup := by
  induction ms generalizing acc with
  | nil => simpa using h
  | cons m ms ih =>
    simp only [List.foldl_cons]
    exact ih _ (nodup_mapKeys_mapSet acc _ _ h)

theorem mapGet_foldl (env : Env) (ms : List Member) (acc : List (String × GoValue))
    (k : String) :
    mapGet (ms.foldl (fun r m => mapSet r m.name (unserialize env m.value)) acc) k
      = ((lastNamed ms k).map (unserialize env)).or (mapGet acc k) := by
  induction ms generalizing acc with
  | nil => simp [lastNamed]
  | cons m ms ih =>
    simp only [List.foldl_cons, ih, lastNamed_cons, mapGet_mapSet]
    cases lastNamed ms k with
    | some v => simp
    | none =>
      by_cases h : m.name = k <;> simp [h]

/-- C9: with a nil array and a member list that is not empty, `unserialize` returns a
mapping whose keys are pairwise distinct and are exactly the member names, which holds under
each name the decoded value of the last member of that name, and which has as many entries
as there are distinct names. -/
theorem unserialize_struct_last_wins (env : Env) (ms : List Member) (s i b d f : String)
    (_hms : ms ≠ []) :
    ∃ r, unserialize env (.mk none (some ms) s i b d f) = .map r ∧
      (mapKeys r).Nodup ∧
      (∀ k, k ∈ mapKeys r ↔ k ∈ ms.map Member.name) ∧
      (∀ k, mapGet r k = (lastNamed ms k).map (unserialize env)) ∧
      r.length = (ms.map Member.name).dedup.length := by
  refine ⟨ms.foldl (fun r m => mapSet r m.name (unserialize env m.value)) [], ?_, ?_, ?_, ?_, ?_⟩
  · simp [unserialize, unserializeMembers_eq_foldl]
  · exact nodup_mapKeys_foldl env ms [] (by simp [mapKeys])
  · intro k
    rw [mem_mapKeys_foldl]
    simp [mapKeys]
  · intro k
    simp [mapGet_foldl, mapGet]
  · have hnd := nodup_mapKeys_foldl env ms [] (by simp [mapKeys])
    have hperm : List.Perm
        (mapKeys (ms.foldl (fun r m => mapSet r m.name (unserialize env m.value)) []))
        (ms.map Member.name).dedup := by
      rw [List.perm_ext_iff_of_nodup hnd (List.nodup_dedup _)]
      intro k
      rw [mem_mapKeys_foldl, List.mem_dedup]
      simp [mapKeys]
    have := hperm.length_eq
    simpa [mapKeys] using this

/-- C9 on three members named a, b, a: two entries, and `a` holds the value of the third
member. -/
theorem unserialize_struct_last_wins_witness :
    [Member.mk "a" (intValue "1"), Member.mk "b" (intValue "2"), Member.mk "a" (intValue "3")]
      ≠ [] ∧
    (∃ r, unserialize (stubEnv sumResponse)
        (.mk none (some [.mk "a" (intValue "1"), .mk "b" (intValue "2"), .mk "a" (intValue "3")])
          "" "" "" "" "") = .map r ∧
      mapGet r "a" = (lastNamed
        [.mk "a" (intValue "1"), .mk "b" (intValue "2"), .mk "a" (intValue "3")] "a").map
          (unserialize (stubEnv sumResponse))) ∧
    unserialize (stubEnv sumResponse)
        (.mk none (some [.mk "a" (intValue "1"), .mk "b" (intValue "2"), .mk "a" (intValue "3")])
          "" "" "" "" "")
      = .map [("a", .int .int 3), ("b", .int .int 2)] :=
  ⟨by simp,
   (unserialize_struct_last_wins (stubEnv sumResponse)
      [.mk "a" (intValue "1"), .mk "b" (intValue "2"), .mk "a" (intValue "3")] "" "" "" "" ""
      (by simp)).imp (fun _ hr => ⟨hr.1, hr.2.2.2.1 "a"⟩),
   rfl⟩

/-! ## The struct round trip -/

theorem mapGet_eq_some_iff (m : List (String × GoValue)) (h : (mapKeys m).Nodup) (k : String)
    (v : GoValue) : mapGet m k = some v ↔ (k, v) ∈ m := by
  induction m with
  | nil => simp [mapGet]
  | cons p rest ih =>
    obtain ⟨k0, v0⟩ := p
    have hcons : k0 ∉ mapKeys rest ∧ (mapKeys rest).Nodup := by
      simpa [mapKeys] using h
    by_cases hk : k0 = k
    · subst hk
      have hnot : (k0, v) ∉ rest := fun hc =>
        hcons.1 (by simpa [mapKeys] using ⟨v, hc⟩)
      simp only [mapGet, if_true, Option.some.injEq, List.mem_cons, Prod.mk.injEq, true_and]
      constructor
      · intro hv; exact Or.inl hv.symm
      · rintro (hv | hv)
        · exact hv.symm
        · exact absurd hv hnot
    · simp only [mapGet, hk, if_false, ih hcons.2, List.mem_cons, Prod.mk.injEq]
      constructor
      · intro hv; exact Or.inr hv
      · rintro (⟨hv, _⟩ | hv)
        · exact absurd hv.symm hk
        · exact hv

theorem mapGet_perm (m order : List (String × GoValue)) (hperm : order.Perm m)
    (h : (mapKeys m).Nodup) (k : String) : mapGet order k = mapGet m k := by
  have ho : (mapKeys order).Nodup := (hperm.map Prod.fst).nodup_iff.mpr h
  apply Option.ext
  intro v
  simp only [Option.mem_def]
  rw [mapGet_eq_some_iff order ho, mapGet_eq_some_iff m h]
  exact hperm.mem_iff

theorem mapGet_eq_none_of_not_mem (m : List (String × GoValue)) (k : String)
    (h : k ∉ mapKeys m) : mapGet m k = none := by
  induction m with
  | nil => simp [mapGet]
  | cons p rest ih =>
    obtain ⟨k0, v0⟩ := p
    have hk : ¬ k0 = k := fun hc => h (by simp [mapKeys, hc])
    have hr : k ∉ mapKeys rest := fun hc => h (by
      simp only [mapKeys] at hc
      simp [mapKeys, hc])
    simp [mapGet, hk, ih hr]

theorem lastNamed_wireMembers (env : Env) (order : List (String × GoValue))
    (h : (mapKeys order).Nodup) (k : String) :
    lastNamed (wireMembers env order) k = (mapGet order k).map (wireOf env) := by
  induction order with
  | nil => simp [wireMembers, lastNamed, mapGet]
  | cons p rest ih =>
    obtain ⟨k0, v0⟩ := p
    have hcons : k0 ∉ mapKeys rest ∧ (mapKeys rest).Nodup := by
      simpa [mapKeys] using h
    rw [wireMembers, lastNamed_cons, ih hcons.2]
    by_cases hk : k0 = k
    · subst hk
      simp [mapGet, Member.name, Member.value, mapGet_eq_none_of_not_mem rest k0 hcons.1]
    · cases hg : mapGet rest k <;> simp [mapGet, Member.name, hk, hg]

theorem unserialize_wireOf_scalar (env : Env) (v : GoValue) (h : scalarInRange v) :
    unserialize env (wireOf env v) = asDecoded v := by
  cases v with
  | str s =>
    have hs : s ≠ "" := h
    simp [wireOf, unserialize, asDecoded, hs]
  | int k n =>
    have hk : k.holds n ∧ n ≤ 2 ^ 63 - 1 := h
    have hlo : -(2 ^ 63) ≤ n := by
      have h1 := hk.1.1
      cases k <;> simp only [IntKind.minVal] at h1 <;> omega
    simp [wireOf, unserialize, asDecoded, formatInt_ne_empty n hlo hk.2,
      Atoi_formatInt n hlo hk.2]
  | nil => exact absurd h (by simp [scalarInRange])
  | float k f => exact absurd h (by simp [scalarInRange])
  | bool b => exact absurd h (by simp [scalarInRange])
  | time t => exact absurd h (by simp [scalarInRange])
  | slice xs => exact absurd h (by simp [scalarInRange])
  | map m => exact absurd h (by simp [scalarInRange])
  | reflMap m => exact absurd h (by simp [scalarInRange])
  | other d => exact absurd h (by simp [scalarInRange])

/-- For a mapping that is not empty, from distinct string keys to strings that are not
empty and integers that fit the 64-bit `int`, the wire value `wireOf` of the mapping, in
whichever order the entries were emitted, decodes to a mapping that holds under every key
the value of the original mapping, integers coming back as `int`. -/
theorem unserialize_wireOf_map (env : Env) (m order : List (String × GoValue))
    (hperm : order.Perm m) (hne : m ≠ []) (hkeys : (mapKeys m).Nodup)
    (hvals : ∀ p ∈ m, scalarInRange p.2) :
    ∃ r, unserialize env (wireOf env (.map order)) = .map r ∧ (mapKeys r).Nodup ∧
      ∀ k, mapGet r k = (mapGet m k).map asDecoded := by
  have ho : (mapKeys order).Nodup := (hperm.map Prod.fst).nodup_iff.mpr hkeys
  have hone : order ≠ [] := fun hc => hne (by
    rw [hc] at hperm
    exact List.Perm.eq_nil hperm.symm)
  refine ⟨(wireMembers env order).foldl
    (fun r m => mapSet r m.name (unserialize env m.value)) [], ?_, ?_, ?_⟩
  · cases order with
    | nil => exact absurd rfl hone
    | cons p rest =>
      obtain ⟨k0, v0⟩ := p
      simp [wireOf, wireMembers, sliceOf, unserialize, unserializeMembers_eq_foldl]
  · exact nodup_mapKeys_foldl env _ [] (by simp [mapKeys])
  · intro k
    rw [mapGet_foldl, lastNamed_wireMembers env order ho, mapGet_perm m order hperm hkeys]
    cases hg : mapGet m k with
    | none => simp [mapGet]
    | some v =>
      have hmem : (k, v) ∈ m := (mapGet_eq_some_iff m hkeys k v).mp hg
      have := unserialize_wireOf_scalar env v (hvals (k, v) hmem)
      simp [this]


/-! ## Reading fails, nothing is populated, arrays, floats -/

theorem unserialize_eq_nil_of_not_populated (env : Env) (v : Value) (h : ¬ v.populated) :
    unserialize env v = .nil := by
  cases v with
  | mk l o s i b d f =>
    simp only [Value.populated, Value.list, Value.object, Value.string, Value.int,
      Value.boolean, Value.dateTime, Value.double, not_or, ne_eq, not_not] at h
    obtain ⟨hl, ho, hs, hi, hb, hd, hf⟩ := h
    subst hl ho hs hi hb hd hf
    simp [unserialize]

/-- C11, amended: `Unserialize` returns an error exactly when reading the body fails, and
then the results and the fault are nil; when the body is read the error is nil whether or
not the XML reader failed, and the results and the fault are decoded from the tree the
reader left: one result per param of that tree and `unserialize` of its fault, hence an
empty result sequence and a nil fault when the tree is still the zero `MethodResponse`. -/
theorem Unserialize_error_iff (env : Env) (buffer : ReadCloser) :
    ((Unserialize env buffer).2.2 ≠ none ↔ ∃ e, buffer.readAll = .error e) ∧
    (∀ e, buffer.readAll = .error e → Unserialize env buffer = (none, .nil, some e)) ∧
    (∀ body, buffer.readAll = .ok body →
      Unserialize env buffer
        = (some ((env.xmlUnmarshal body).Params.map (fun param => unserialize env param.Value)),
            unserialize env (env.xmlUnmarshal body).Fault, none)) ∧
    (∀ body, buffer.readAll = .ok body → env.xmlUnmarshal body = ⟨[], Value.zero⟩ →
      Unserialize env buffer = (some [], .nil, none)) ∧
    (∀ body tree failed, xmlUnmarshalResponse body = some (tree, failed) →
      Unserialize readerEnv ⟨.ok body⟩
        = (some (tree.Params.map (fun param => unserialize readerEnv param.Value)),
            unserialize readerEnv tree.Fault, none)) := by
  refine ⟨?_, ?_, ?_, ?_, ?_⟩
  · cases h : buffer.readAll with
    | error e => simp [Unserialize, h]
    | ok body => simp [Unserialize, h]
  · intro e h
    simp [Unserialize, h]
  · intro body h
    simp [Unserialize, h]
  · intro body h hz
    simp [Unserialize, h, hz, Value.zero, unserialize]
  · intro body tree failed h
    simp [Unserialize, readerEnv, h]

/-- C11, amended, on a body whose reading fails and on the empty body, which is read, on
which the XML reader fails for want of an element, and which leaves the zero tree. -/
theorem Unserialize_error_iff_witness :
    Unserialize readerEnv ⟨.error ⟨"unexpected EOF"⟩⟩ = (none, .nil, some ⟨"unexpected EOF"⟩) ∧
    xmlUnmarshalResponse "" = some (⟨[], Value.zero⟩, true) ∧
    Unserialize readerEnv ⟨.ok ""⟩ = (some [], .nil, none) :=
  ⟨(Unserialize_error_iff readerEnv ⟨.error ⟨"unexpected EOF"⟩⟩).2.1 ⟨"unexpected EOF"⟩ rfl,
   rfl,
   (Unserialize_error_iff readerEnv ⟨.ok ""⟩).2.2.2.1 "" rfl rfl⟩

/-- C11 as stated fails on a body cut short after its first param: the XML reader fails at
the end of the input, the tree it leaves holds the param that was read to its end, and
`Unserialize` returns the one result 5, not an empty sequence. -/
theorem Unserialize_parse_failure_counterexample :
    xmlUnmarshalResponse
        "<methodResponse><params><param><value><int>5</int></value></param>"
      = some (⟨[⟨intValue "5"⟩], Value.zero⟩, true) ∧
    Unserialize readerEnv
        ⟨.ok "<methodResponse><params><param><value><int>5</int></value></param>"⟩
      = (some [.int .int 5], .nil, none) ∧
    (Unserialize readerEnv
        ⟨.ok "<methodResponse><params><param><value><int>5</int></value></param>"⟩).1
      ≠ some [] := by
  have h : Unserialize readerEnv
      ⟨.ok "<methodResponse><params><param><value><int>5</int></value></param>"⟩
      = (some [.int .int 5], .nil, none) := rfl
  refine ⟨rfl, h, ?_⟩
  rw [h]
  simp

/-- C13, amended: a wire value with a nil array, a nil member list and five empty texts
decodes to nil, and nil is returned for no other wire value; the wire values that the XML
reader leaves for a genuine empty string, an empty array and an empty struct are of this
kind, so they decode to nil like an absent value; and `unserialize` never returns the empty
string. -/
theorem unserialize_nil_iff (env : Env) :
    unserialize env Value.zero = .nil ∧
    (∀ v, unserialize env v = .nil ↔ ¬ v.populated) ∧
    unserialize env (wireOf env (.str "")) = .nil ∧
    unserialize env (.mk (sliceOf []) none "" "" "" "" "") = .nil ∧
    unserialize env (.mk none (sliceOf []) "" "" "" "" "") = .nil ∧
    (∀ v, unserialize env v ≠ .str "") := by
  refine ⟨by simp [Value.zero, unserialize], ?_, by simp [wireOf, unserialize],
    by simp [sliceOf, unserialize], by simp [sliceOf, unserialize], ?_⟩
  · intro v
    constructor
    · intro h hp
      exact unserialize_ne_nil_of_populated env v hp h
    · exact unserialize_eq_nil_of_not_populated env v
  · intro v
    cases v with
    | mk l o s i b d f =>
      cases l with
      | some xs => simp [unserialize]
      | none =>
        cases o with
        | some ms => simp [unserialize]
        | none =>
          simp only [unserialize]
          split_ifs with h1 <;> simp
          exact fun hc => h1 hc

/-- C13, amended, on a wire value that holds only a boolean text: it is populated, so it
does not decode to nil. -/
theorem unserialize_nil_iff_witness :
    (Value.mk none none "" "" "0" "" "").populated ∧
    unserialize (stubEnv sumResponse) (.mk none none "" "" "0" "" "") ≠ .nil :=
  have hp : (Value.mk none none "" "" "0" "" "").populated := by
    simp [Value.populated, Value.boolean]
  ⟨hp, fun h => ((unserialize_nil_iff (stubEnv sumResponse)).2.1 _).mp h hp⟩

/-- C13 as stated fails on a wire value whose array is a slice of length zero that is not
nil: it has no array element, no member and only empty texts, yet it decodes to an empty
sequence; likewise an empty member slice that is not nil decodes to an empty mapping. -/
theorem unserialize_empty_slice_counterexample :
    (Value.mk (some []) none "" "" "" "" "").list = some [] ∧
    unserialize (stubEnv sumResponse) (.mk (some []) none "" "" "" "" "") = .slice [] ∧
    unserialize (stubEnv sumResponse) (.mk (some []) none "" "" "" "" "") ≠ .nil ∧
    unserialize (stubEnv sumResponse) (.mk none (some []) "" "" "" "" "") = .map [] ∧
    unserialize (stubEnv sumResponse) (.mk none (some []) "" "" "" "" "") ≠ .nil := by
  have h1 : unserialize (stubEnv sumResponse) (.mk (some []) none "" "" "" "" "") = .slice [] :=
    rfl
  have h2 : unserialize (stubEnv sumResponse) (.mk none (some []) "" "" "" "" "") = .map [] :=
    rfl
  refine ⟨rfl, h1, ?_, h2, ?_⟩
  · rw [h1]; exact fun h => GoValue.noConfusion h
  · rw [h2]; exact fun h => GoValue.noConfusion h

/-- C17: when the array slice is present, `unserialize` returns a sequence with one element
per array element, the i-th being `unserialize` of the i-th array element, whatever the
other fields hold. -/
theorem unserialize_array (env : Env) (xs : List Value) (o : Option (List Member))
    (s i b d f : String) :
    ∃ r : List GoValue, unserialize env (.mk (some xs) o s i b d f) = .slice r ∧
      r.length = xs.length ∧
      ∀ (j : Nat) (hj : j < xs.length), r[j]? = some (unserialize env (xs.get ⟨j, hj⟩)) := by
  refine ⟨xs.map (unserialize env), ?_, by simp, ?_⟩
  · simp [unserialize, unserializeList_eq_map]
  · intro j hj
    simp [List.getElem?_map, List.getElem?_eq_getElem hj]


/-! ## `strconv.Atoi` against the decimal reading of a text -/

theorem le_foldl_digits (cs : List Char) (a : Nat) :
    a ≤ cs.foldl (fun a c => a * 10 + (c.toNat - 48)) a := by
  induction cs generalizing a with
  | nil => simp
  | cons c cs ih =>
    simp only [List.foldl_cons]
    exact Nat.le_trans (by omega) (ih _)

theorem parseUintLoop_allDigits (cs : List Char) (h : allDigits cs) (n : Nat)
    (hn : n < 2 ^ 64) :
    parseUintLoop cs n
      = if cs.foldl (fun a c => a * 10 + (c.toNat - 48)) n < 2 ^ 64
        then (cs.foldl (fun a c => a * 10 + (c.toNat - 48)) n, none)
        else (maxUint64, some .outOfRange) := by
  induction cs generalizing n with
  | nil =>
    simp only [parseUintLoop, List.foldl_nil, if_pos hn]
  | cons c cs ih =>
    have hc : 48 ≤ c.toNat ∧ c.toNat ≤ 57 := h c (List.mem_cons_self _ _)
    have hcs : allDigits cs := fun x hx => h x (List.mem_cons_of_mem _ hx)
    have hmono := le_foldl_digits cs (n * 10 + (c.toNat - 48))
    simp only [List.foldl_cons]
    by_cases hcut : n ≥ maxUint64 / 10 + 1
    · have hbig : ¬ cs.foldl (fun a c => a * 10 + (c.toNat - 48)) (n * 10 + (c.toNat - 48))
          < 2 ^ 64 := by
        simp only [maxUint64] at hcut
        omega
      simp only [parseUintLoop, if_pos hc, if_pos hcut, if_neg hbig]
    · have h10 : (n * 10) % 2 ^ 64 = n * 10 := by
        simp only [maxUint64] at hcut
        exact Nat.mod_eq_of_lt (by omega)
      by_cases hfit : n * 10 + (c.toNat - 48) < 2 ^ 64
      · have h1 : (n * 10 + (c.toNat - 48)) % 2 ^ 64 = n * 10 + (c.toNat - 48) :=
          Nat.mod_eq_of_lt hfit
        have hno : ¬ (n * 10 + (c.toNat - 48) < n * 10 ∨ n * 10 + (c.toNat - 48) > maxUint64) := by
          simp only [maxUint64]; omega
        simp only [parseUintLoop, if_pos hc, if_neg hcut, h10, h1, if_neg hno]
        exact ih hcs _ hfit
      · have hbig : ¬ cs.foldl (fun a c => a * 10 + (c.toNat - 48)) (n * 10 + (c.toNat - 48))
            < 2 ^ 64 := by omega
        have h1 : (n * 10 + (c.toNat - 48)) % 2 ^ 64 = n * 10 + (c.toNat - 48) - 2 ^ 64 := by
          have hlt : n * 10 + (c.toNat - 48) - 2 ^ 64 < 2 ^ 64 := by
            simp only [maxUint64] at hcut
            omega
          have hsplit : n * 10 + (c.toNat - 48)
              = (n * 10 + (c.toNat - 48) - 2 ^ 64) + 2 ^ 64 := by omega
          rw [hsplit, Nat.add_mod_right, Nat.mod_eq_of_lt hlt]
          omega
        have hyes : n * 10 + (c.toNat - 48) - 2 ^ 64 < n * 10 ∨
            n * 10 + (c.toNat - 48) - 2 ^ 64 > maxUint64 := by
          left; omega
        simp only [parseUintLoop, if_pos hc, if_neg hcut, h10, h1, if_pos hyes, if_neg hbig]

theorem parseUintLoop_not_allDigits (cs : List Char) (h : ¬ allDigits cs) (n : Nat) :
    (parseUintLoop cs n).2 ≠ none := by
  induction cs generalizing n with
  | nil => exact absurd (fun c hc => absurd hc (List.not_mem_nil c)) h
  | cons c cs ih =>
    by_cases hc : 48 ≤ c.toNat ∧ c.toNat ≤ 57
    · have hcs : ¬ allDigits cs := by
        intro hall
        apply h
        intro x hx
        rcases List.mem_cons.mp hx with rfl | hx
        · exact hc
        · exact hall x hx
      simp only [parseUintLoop, if_pos hc]
      split_ifs
      · simp
      · simp
      · exact ih hcs _
    · simp [parseUintLoop, hc]

theorem parseUintLoop_invalid (cs : List Char) (n : Nat)
    (h : (parseUintLoop cs n).2 = some .invalid) : parseUintLoop cs n = (0, some .invalid) := by
  induction cs generalizing n with
  | nil => simp [parseUintLoop] at h
  | cons c cs ih =>
    by_cases hc : 48 ≤ c.toNat ∧ c.toNat ≤ 57
    · simp only [parseUintLoop, if_pos hc] at h ⊢
      split_ifs at h ⊢
      · simp at h
      · simp at h
      · exact ih _ h
    · simp [parseUintLoop, hc]

theorem parseUintLoop_outOfRange (cs : List Char) (n : Nat)
    (h : (parseUintLoop cs n).2 = some .outOfRange) :
    parseUintLoop cs n = (maxUint64, some .outOfRange) := by
  induction cs generalizing n with
  | nil => simp [parseUintLoop] at h
  | cons c cs ih =>
    by_cases hc : 48 ≤ c.toNat ∧ c.toNat ≤ 57
    · simp only [parseUintLoop, if_pos hc] at h ⊢
      split_ifs at h ⊢
      · rfl
      · rfl
      · exact ih _ h
    · simp [parseUintLoop, hc] at h

theorem ParseUint_allDigits (cs : List Char) (hne : cs ≠ []) (h : allDigits cs) :
    ParseUint cs
      = if digitsValue cs < 2 ^ 64 then (digitsValue cs, none)
        else (maxUint64, some .outOfRange) := by
  simp only [ParseUint, if_neg hne, digitsValue]
  exact parseUintLoop_allDigits cs h 0 (by decide)

theorem ParseInt_minus (cs : List Char) (hne : cs ≠ []) (h : allDigits cs) :
    ParseInt ('-' :: cs)
      = if digitsValue cs ≤ 2 ^ 63 then (-(digitsValue cs : Int), none)
        else (-(2 ^ 63), some .outOfRange) := by
  have hu := ParseUint_allDigits cs hne h
  by_cases hfit : digitsValue cs < 2 ^ 64
  · rw [if_pos hfit] at hu
    by_cases hle : digitsValue cs ≤ 2 ^ 63
    · rw [if_pos hle]
      have hgt : ¬ digitsValue cs > 9223372036854775808 := by omega
      simp [ParseInt, hu, hgt]
    · rw [if_neg hle]
      have hgt : digitsValue cs > 9223372036854775808 := by omega
      simp [ParseInt, hu, hgt]
  · rw [if_neg hfit] at hu
    have hle : ¬ digitsValue cs ≤ 2 ^ 63 := by omega
    rw [if_neg hle]
    simp [ParseInt, hu, maxUint64]

theorem ParseInt_unsigned (c : Char) (cs rest : List Char) (hc : ¬ c = '-')
    (hrest : rest = if c = '+' ∨ c = '-' then cs else c :: cs)
    (hne : rest ≠ []) (h : allDigits rest) :
    ParseInt (c :: cs)
      = if digitsValue rest < 2 ^ 63 then ((digitsValue rest : Int), none)
        else (2 ^ 63 - 1, some .outOfRange) := by
  have hu := ParseUint_allDigits rest hne h
  by_cases hfit : digitsValue rest < 2 ^ 64
  · rw [if_pos hfit] at hu
    by_cases hlt : digitsValue rest < 2 ^ 63
    · rw [if_pos hlt]
      have hge : ¬ 9223372036854775808 ≤ digitsValue rest := by omega
      simp only [ParseInt, ← hrest, hu]
      simp [hc, hge]
    · rw [if_neg hlt]
      have hge : 9223372036854775808 ≤ digitsValue rest := by omega
      simp only [ParseInt, ← hrest, hu]
      simp [hc, hge]
  · rw [if_neg hfit] at hu
    have hlt : ¬ digitsValue rest < 2 ^ 63 := by omega
    rw [if_neg hlt]
    simp only [ParseInt, ← hrest, hu]
    simp [hc, maxUint64]

theorem ParseInt_error_none (l : List Char) (h : (ParseInt l).2 = none) :
    ∃ c cs, l = c :: cs ∧
      (if c = '+' ∨ c = '-' then cs else c :: cs) ≠ [] ∧
      allDigits (if c = '+' ∨ c = '-' then cs else c :: cs) := by
  cases l with
  | nil => simp [ParseInt] at h
  | cons c cs =>
    refine ⟨c, cs, rfl, ?_, ?_⟩
    · intro hnil
      simp [ParseInt, hnil, ParseUint] at h
    · by_contra hall
      by_cases hnil : (if c = '+' ∨ c = '-' then cs else c :: cs) = []
      · simp [ParseInt, hnil, ParseUint] at h
      · have hloop := parseUintLoop_not_allDigits _ hall 0
        cases herr : (parseUintLoop (if c = '+' ∨ c = '-' then cs else c :: cs) 0).2 with
        | none => exact hloop herr
        | some e =>
          cases e with
          | invalid =>
            have := parseUintLoop_invalid _ 0 herr
            simp [ParseInt, ParseUint, hnil, this] at h
          | outOfRange =>
            have := parseUintLoop_outOfRange _ 0 herr
            simp only [ParseInt, ParseUint, if_neg hnil, this, maxUint64] at h
            by_cases hm : c = '-' <;> simp [hm] at h

theorem ParseInt_error_value (l : List Char) :
    ((ParseInt l).2 = some .invalid → (ParseInt l).1 = 0) ∧
    ((ParseInt l).2 = some .outOfRange →
      (ParseInt l).1 = 2 ^ 63 - 1 ∨ (ParseInt l).1 = -(2 ^ 63)) := by
  cases l with
  | nil => simp [ParseInt]
  | cons c cs =>
    simp only [ParseInt]
    split
    · simp
    · split_ifs <;> simp

theorem decimalValue_eq_none (i : String) (h : decimalValue i = none) : (Atoi i).2 ≠ none := by
  intro herr
  obtain ⟨c, cs, hl, hne, hall⟩ := ParseInt_error_none i.data herr
  simp only [decimalValue, hl] at h
  by_cases hm : c = '-'
  · subst hm
    simp only [if_true, or_true] at hne hall
    simp [hne, hall] at h
  · by_cases hp : c = '+'
    · subst hp
      simp only [if_true, true_or] at hne hall
      simp [hne, hall] at h
    · simp only [hm, hp, or_self, if_false] at hne hall
      simp [hm, hp, hall] at h

theorem Atoi_of_decimalValue (i : String) (n : Int) (h : decimalValue i = some n) :
    Atoi i
      = if n < -(2 ^ 63) then (-(2 ^ 63), some .outOfRange)
        else if 2 ^ 63 - 1 < n then (2 ^ 63 - 1, some .outOfRange)
        else (n, none) := by
  cases hl : i.data with
  | nil => simp [decimalValue, hl] at h
  | cons c cs =>
    simp only [decimalValue, hl] at h
    simp only [Atoi, hl]
    by_cases hm : c = '-'
    · subst hm
      simp only [if_true] at h
      by_cases hd : cs ≠ [] ∧ allDigits cs
      · simp only [if_pos hd, Option.some.injEq] at h
        rw [ParseInt_minus cs hd.1 hd.2]
        subst h
        by_cases hle : digitsValue cs ≤ 2 ^ 63
        · have h1 : ¬ (-(digitsValue cs : Int) < -(2 ^ 63)) := by omega
          have h2 : ¬ ((2 : Int) ^ 63 - 1 < -(digitsValue cs : Int)) := by omega
          simp only [if_pos hle, if_neg h1, if_neg h2]
        · have h1 : -(digitsValue cs : Int) < -(2 ^ 63) := by omega
          simp only [if_neg hle, if_pos h1]
      · simp [if_neg hd] at h
    · simp only [if_neg hm] at h
      by_cases hp : c = '+'
      · subst hp
        simp only [if_true] at h
        by_cases hd : cs ≠ [] ∧ allDigits cs
        · simp only [if_pos hd, Option.some.injEq] at h
          rw [ParseInt_unsigned '+' cs cs (by decide) (by simp) hd.1 hd.2]
          subst h
          by_cases hlt : digitsValue cs < 2 ^ 63
          · have h1 : ¬ ((digitsValue cs : Int) < -(2 ^ 63)) := by omega
            have h2 : ¬ ((2 : Int) ^ 63 - 1 < (digitsValue cs : Int)) := by omega
            simp only [if_pos hlt, if_neg h1, if_neg h2]
          · have h1 : ¬ ((digitsValue cs : Int) < -(2 ^ 63)) := by omega
            have h2 : (2 : Int) ^ 63 - 1 < (digitsValue cs : Int) := by omega
            simp only [if_neg hlt, if_neg h1, if_pos h2]
        · simp [if_neg hd] at h
      · simp only [if_neg hp] at h
        by_cases hd : allDigits (c :: cs)
        · simp only [if_pos hd, Option.some.injEq] at h
          rw [ParseInt_unsigned c cs (c :: cs) hm (by simp [hm, hp]) (by simp) hd]
          subst h
          by_cases hlt : digitsValue (c :: cs) < 2 ^ 63
          · have h1 : ¬ ((digitsValue (c :: cs) : Int) < -(2 ^ 63)) := by omega
            have h2 : ¬ ((2 : Int) ^ 63 - 1 < (digitsValue (c :: cs) : Int)) := by omega
            simp only [if_pos hlt, if_neg h1, if_neg h2]
          · have h1 : ¬ ((digitsValue (c :: cs) : Int) < -(2 ^ 63)) := by omega
            have h2 : (2 : Int) ^ 63 - 1 < (digitsValue (c :: cs) : Int) := by omega
            simp only [if_neg hlt, if_neg h1, if_pos h2]
        · simp [if_neg hd] at h

/-- C12, amended: with a nil array slice, a nil member slice, an empty string text and an
int text that is not empty, `unserialize` returns the first result of `strconv.Atoi`, the error being dropped: the
integer itself for a decimal integer that fits the signed 64-bit `int`; the nearest bound,
2^63-1 or -2^63, for a decimal integer that does not fit; and for a text that is not a
decimal integer, on which parsing always fails, 0 when the failure is a syntax error and a
bound when it is a range error. -/
theorem unserialize_int_text (env : Env) (i b d f : String) (hi : i ≠ "") :
    unserialize env (.mk none none "" i b d f) = .int .int (Atoi i).1 ∧
    (∀ n, decimalValue i = some n → -(2 ^ 63) ≤ n → n ≤ 2 ^ 63 - 1 →
      (Atoi i).2 = none ∧ unserialize env (.mk none none "" i b d f) = .int .int n) ∧
    (∀ n, decimalValue i = some n → 2 ^ 63 - 1 < n →
      (Atoi i).2 = some .outOfRange ∧
        unserialize env (.mk none none "" i b d f) = .int .int (2 ^ 63 - 1)) ∧
    (∀ n, decimalValue i = some n → n < -(2 ^ 63) →
      (Atoi i).2 = some .outOfRange ∧
        unserialize env (.mk none none "" i b d f) = .int .int (-(2 ^ 63))) ∧
    (decimalValue i = none →
      (Atoi i).2 ≠ none ∧
      ((Atoi i).2 = some .invalid →
        unserialize env (.mk none none "" i b d f) = .int .int 0) ∧
      ((Atoi i).2 = some .outOfRange →
        unserialize env (.mk none none "" i b d f) = .int .int (2 ^ 63 - 1) ∨
        unserialize env (.mk none none "" i b d f) = .int .int (-(2 ^ 63)))) := by
  have hu : unserialize env (.mk none none "" i b d f) = .int .int (Atoi i).1 := by
    simp [unserialize, hi]
  refine ⟨hu, ?_, ?_, ?_, ?_⟩
  · intro n hn hlo hhi
    have h1 : ¬ n < -(2 ^ 63) := by omega
    have h2 : ¬ 2 ^ 63 - 1 < n := by omega
    have := Atoi_of_decimalValue i n hn
    rw [if_neg h1, if_neg h2] at this
    rw [hu, this]
    exact ⟨rfl, rfl⟩
  · intro n hn hbig
    have h1 : ¬ n < -(2 ^ 63) := by omega
    have := Atoi_of_decimalValue i n hn
    rw [if_neg h1, if_pos hbig] at this
    rw [hu, this]
    exact ⟨rfl, rfl⟩
  · intro n hn hsmall
    have := Atoi_of_decimalValue i n hn
    rw [if_pos hsmall] at this
    rw [hu, this]
    exact ⟨rfl, rfl⟩
  · intro hnone
    refine ⟨decimalValue_eq_none i hnone, ?_, ?_⟩
    · intro hinv
      have := (ParseInt_error_value i.data).1 hinv
      rw [hu]
      simp only [Atoi]
      rw [this]
    · intro hrange
      rw [hu]
      simp only [Atoi]
      rcases (ParseInt_error_value i.data).2 hrange with h | h
      · left; rw [h]
      · right; rw [h]

/-- C12, amended, on the texts "-42" (a decimal integer that fits) and "12x" (not a decimal
integer, a syntax error). -/
theorem unserialize_int_text_witness :
    ("-42" : String) ≠ "" ∧ decimalValue "-42" = some (-42) ∧
    unserialize (stubEnv sumResponse) (.mk none none "" "-42" "" "" "") = .int .int (-42) ∧
    ("12x" : String) ≠ "" ∧ decimalValue "12x" = none ∧
    (Atoi "12x").2 = some .invalid ∧
    unserialize (stubEnv sumResponse) (.mk none none "" "12x" "" "" "") = .int .int 0 :=
  ⟨by decide, by decide,
   ((unserialize_int_text (stubEnv sumResponse) "-42" "" "" "" (by decide)).2.1 (-42)
      (by decide) (by decide) (by decide)).2,
   by decide, by decide, by decide,
   ((unserialize_int_text (stubEnv sumResponse) "12x" "" "" "" (by decide)).2.2.2.2
      (by decide)).2.1 (by decide)⟩

/-- C12 as stated fails on the text "9223372036854775808", a decimal integer that does not
fit the signed 64-bit integer: parsing fails with a range error and `unserialize` returns
2^63-1, not 0; and it fails on a member slice of length zero that is not nil, where array,
struct and string hold nothing and the int text "12" parses, yet the result is an empty
mapping. -/
theorem unserialize_int_range_counterexample :
    ("9223372036854775808" : String) ≠ "" ∧
    decimalValue "9223372036854775808" = some 9223372036854775808 ∧
    (Atoi "9223372036854775808").2 = some .outOfRange ∧
    unserialize (stubEnv sumResponse) (.mk none none "" "9223372036854775808" "" "" "")
      = .int .int 9223372036854775807 ∧
    unserialize (stubEnv sumResponse) (.mk none none "" "9223372036854775808" "" "" "")
      ≠ .int .int 0 ∧
    (Value.mk none (some []) "" "12" "" "" "").object = some [] ∧
    Atoi "12" = (12, none) ∧
    unserialize (stubEnv sumResponse) (.mk none (some []) "" "12" "" "" "") = .map [] ∧
    unserialize (stubEnv sumResponse) (.mk none (some []) "" "12" "" "" "")
      ≠ .int .int 12 := by
  have h : unserialize (stubEnv sumResponse) (.mk none none "" "9223372036854775808" "" "" "")
      = .int .int 9223372036854775807 := rfl
  have h2 : unserialize (stubEnv sumResponse) (.mk none (some []) "" "12" "" "" "")
      = .map [] := rfl
  refine ⟨by decide, by decide, by decide, h, ?_, rfl, by decide, h2, ?_⟩
  · rw [h]
    intro hc
    injection hc with _ hv
    exact absurd hv (by decide)
  · rw [h2]; exact fun hc => GoValue.noConfusion hc

/-! ## The decimal text of an integer -/

theorem toDigitsCore_allDigits (fuel : Nat) :
    ∀ (n : Nat) (ds : List Char), allDigits ds → allDigits (Nat.toDigitsCore 10 fuel n ds) := by
  induction fuel with
  | zero => intro n ds h; simpa [Nat.toDigitsCore] using h
  | succ fuel ih =>
    intro n ds h
    have hd : allDigits (Nat.digitChar (n % 10) :: ds) := by
      intro c hc
      rcases List.mem_cons.mp hc with rfl | hc
      · have := digitChar_toNat (n % 10) (Nat.mod_lt _ (by decide))
        omega
      · exact h c hc
    simp only [Nat.toDigitsCore]
    split_ifs
    · exact hd
    · exact ih _ _ hd

theorem digitsValue_toDigitsCore (fuel : Nat) :
    ∀ (n : Nat) (ds : List Char), n < fuel →
      (Nat.toDigitsCore 10 fuel n ds).foldl (fun a c => a * 10 + (c.toNat - 48)) 0
        = ds.foldl (fun a c => a * 10 + (c.toNat - 48)) n := by
  induction fuel with
  | zero => intro n ds h; omega
  | succ fuel ih =>
    intro n ds hfuel
    have hc := digitChar_toNat (n % 10) (Nat.mod_lt _ (by decide))
    by_cases hq : n / 10 = 0
    · simp only [Nat.toDigitsCore, hq, if_true, List.foldl_cons, hc]
      congr 1
      omega
    · simp only [Nat.toDigitsCore, hq, if_false]
      rw [ih (n / 10) _ (by omega)]
      simp only [List.foldl_cons, hc]
      congr 1
      omega

theorem toDigits_spec (n : Nat) :
    Nat.toDigits 10 n ≠ [] ∧ allDigits (Nat.toDigits 10 n) ∧
      digitsValue (Nat.toDigits 10 n) = n := by
  have hv : digitsValue (Nat.toDigits 10 n) = n := by
    simp only [digitsValue, Nat.toDigits]
    rw [digitsValue_toDigitsCore (n + 1) n [] (by omega)]
    rfl
  refine ⟨?_, ?_, hv⟩
  · intro h
    rw [h] at hv
    have h0 : n = 0 := by simpa [digitsValue] using hv.symm
    subst h0
    exact absurd h (by decide)
  · exact toDigitsCore_allDigits _ _ _ (fun c hc => absurd hc (List.not_mem_nil c))

theorem decimalValue_formatInt (n : Int) : decimalValue (formatInt n) = some n := by
  cases n with
  | ofNat m =>
    obtain ⟨hne, hall, hv⟩ := toDigits_spec m
    have hdata : (formatInt (Int.ofNat m)).data = Nat.toDigits 10 m := rfl
    cases hl : Nat.toDigits 10 m with
    | nil => exact absurd hl hne
    | cons c cs =>
      rw [hl] at hall hv
      have hc : 48 ≤ c.toNat ∧ c.toNat ≤ 57 := hall c (List.mem_cons_self _ _)
      have hm : ¬ c = '-' := by
        intro h; rw [h] at hc; exact absurd hc (by decide)
      have hp : ¬ c = '+' := by
        intro h; rw [h] at hc; exact absurd hc (by decide)
      simp only [decimalValue, hdata, hl, if_neg hm, if_neg hp, if_pos hall, hv]
      rfl
  | negSucc m =>
    obtain ⟨hne, hall, hv⟩ := toDigits_spec (m + 1)
    have hdata : (formatInt (Int.negSucc m)).data = '-' :: Nat.toDigits 10 (m + 1) := rfl
    simp only [decimalValue, hdata, if_true, if_pos (And.intro hne hall), hv]
    rfl

/-- C14: a string is emitted between `<value><string>` and `</string></value>` exactly as
it is; an integer of a listed type is emitted between `<value><int>` and `</int></value>`
as its decimal text, which is a decimal integer denoting that integer and begins with `-`
exactly for the negative integers. -/
theorem serialize_scalar_text (env : Env) :
    (∀ s, serialize env (.str s) = some ("<value><string>" ++ s ++ "</string></value>")) ∧
    (∀ k n, serialize env (.int k n)
      = some ("<value><int>" ++ formatInt n ++ "</int></value>")) ∧
    (∀ n : Int, decimalValue (formatInt n) = some n) ∧
    (∀ n : Nat, formatInt (n : Int) = String.mk (Nat.toDigits 10 n)) ∧
    (∀ n : Nat, formatInt (-((n : Int) + 1)) = "-" ++ String.mk (Nat.toDigits 10 (n + 1))) := by
  have e1 : "<value><string>" = "<value>" ++ "<string>" := by decide
  have e2 : "</string></value>" = "</string>" ++ "</value>" := by decide
  have e3 : "<value><int>" = "<value>" ++ "<int>" := by decide
  have e4 : "</int></value>" = "</int>" ++ "</value>" := by decide
  refine ⟨?_, ?_, decimalValue_formatInt, fun n => rfl, ?_⟩
  · intro s
    simp only [serialize, e1, e2, String.append_assoc]
  · intro k n
    simp only [serialize, e3, e4, String.append_assoc]
  · intro n
    have : -((n : Int) + 1) = Int.negSucc n := by
      rw [Int.negSucc_eq]
    rw [this]
    rfl

/-- C14 on the string `<a&b>` and on the `int16` value -7. -/
theorem serialize_scalar_text_witness :
    serialize (stubEnv sumResponse) (.str "<a&b>")
      = some "<value><string><a&b></string></value>" ∧
    serialize (stubEnv sumResponse) (.int .int16 (-7)) = some "<value><int>-7</int></value>" :=
  ⟨(serialize_scalar_text (stubEnv sumResponse)).1 "<a&b>",
   (serialize_scalar_text (stubEnv sumResponse)).2.1 .int16 (-7)⟩


/-! ## Encoding: the members of a struct -/

theorem serializeEntries_acc (env : Env) (m : List (String × GoValue)) (acc : String) :
    serializeEntries env m acc = (serializeEntries env m "").map (fun body => acc ++ body) := by
  induction m generalizing acc with
  | nil => simp [serializeEntries]
  | cons p rest ih =>
    obtain ⟨k, v⟩ := p
    cases hv : serialize env v with
    | none => simp [serializeEntries, hv]
    | some s =>
      simp only [serializeEntries, hv]
      rw [ih (acc ++ "<member>" ++ ("<name>" ++ k ++ "</name>") ++ s ++ "</member>"),
        ih ("" ++ "<member>" ++ ("<name>" ++ k ++ "</name>") ++ s ++ "</member>")]
      cases serializeEntries env rest "" with
      | none => rfl
      | some body => simp [String.append_assoc]

theorem serializeKeyed_acc (env : Env) (m : List (GoValue × GoValue)) (acc : String) :
    serializeKeyed env m acc = (serializeKeyed env m "").map (fun body => acc ++ body) := by
  induction m generalizing acc with
  | nil => simp [serializeKeyed]
  | cons p rest ih =>
    obtain ⟨k, v⟩ := p
    cases hv : serialize env v with
    | none => simp [serializeKeyed, hv]
    | some s =>
      simp only [serializeKeyed, hv]
      rw [ih (acc ++ "<member>"
          ++ ("<name>" ++ (match k with | .str t => t | _ => env.formatKey k) ++ "</name>")
          ++ s ++ "</member>"),
        ih ("" ++ "<member>"
          ++ ("<name>" ++ (match k with | .str t => t | _ => env.formatKey k) ++ "</name>")
          ++ s ++ "</member>")]
      cases serializeKeyed env rest "" with
      | none => rfl
      | some body => simp [String.append_assoc]

theorem serializeEntries_eq_some (env : Env) (m : List (String × GoValue))
    (texts : List String)
    (h : List.Forall₂ (fun p t => ∃ tv, serialize env p.2 = some tv ∧
      t = "<member><name>" ++ p.1 ++ "</name>" ++ tv ++ "</member>") m texts) (acc : String) :
    serializeEntries env m acc = some (acc ++ String.join texts) := by
  have e1 : "<member><name>" = "<member>" ++ "<name>" := by decide
  induction h generalizing acc with
  | nil => simp [serializeEntries, String.join]
  | cons hp _ ih =>
    obtain ⟨tv, hv, ht⟩ := hp
    simp only [serializeEntries, hv, ih, ht, join_cons, e1, String.append_assoc]

theorem forall₂_members_of_supported (env : Env) (m : List (String × GoValue))
    (h : ∀ p ∈ m, p.2.supported) :
    ∃ texts, List.Forall₂ (fun p t => ∃ tv, serialize env p.2 = some tv ∧
      t = "<member><name>" ++ p.1 ++ "</name>" ++ tv ++ "</member>") m texts := by
  induction m with
  | nil => exact ⟨[], List.Forall₂.nil⟩
  | cons p rest ih =>
    obtain ⟨tv, hv⟩ := serialize_isSome_of_supported env p.2 (h p (List.mem_cons_self _ _))
    obtain ⟨ts, hts⟩ := ih (fun q hq => h q (List.mem_cons_of_mem _ hq))
    exact ⟨_ :: ts, List.Forall₂.cons ⟨tv, hv, rfl⟩ hts⟩

/-- C15: for a mapping from string keys to supported values, visited in any order that is
a permutation of its entries, `serialize` returns `<value><struct>`, then for each entry in
the order visited the text `<member><name>`, key, `</name>`, `serialize` of the value,
`</member>`, then `</struct></value>`; the empty mapping gives
`<value><struct></struct></value>`. -/
theorem serialize_map_members (env : Env) (m order : List (String × GoValue))
    (hperm : order.Perm m) (hsup : ∀ p ∈ m, p.2.supported) :
    (∃ texts,
      List.Forall₂ (fun p t => ∃ tv, serialize env p.2 = some tv ∧
        t = "<member><name>" ++ p.1 ++ "</name>" ++ tv ++ "</member>") order texts ∧
      serialize env (.map order)
        = some ("<value><struct>" ++ String.join texts ++ "</struct></value>")) ∧
    serialize env (.map []) = some "<value><struct></struct></value>" := by
  have e1 : "<value><struct>" = "<value>" ++ "<struct>" := by decide
  have e2 : "</struct></value>" = "</struct>" ++ "</value>" := by decide
  constructor
  · obtain ⟨texts, ht⟩ := forall₂_members_of_supported env order
      (fun p hp => hsup p (hperm.mem_iff.mp hp))
    refine ⟨texts, ht, ?_⟩
    simp only [serialize, serializeEntries_eq_some env order texts ht, e1, e2,
      String.append_assoc]
  · rfl

/-- C15 on the mapping `a` to 1, `b` to "x", visited as `b` then `a`. -/
theorem serialize_map_members_witness :
    List.Perm [("b", GoValue.str "x"), ("a", GoValue.int .int 1)]
      [("a", GoValue.int .int 1), ("b", GoValue.str "x")] ∧
    (∀ p ∈ [("a", GoValue.int .int 1), ("b", GoValue.str "x")], p.2.supported) ∧
    (∃ texts,
      List.Forall₂ (fun p t => ∃ tv, serialize (stubEnv sumResponse) p.2 = some tv ∧
          t = "<member><name>" ++ p.1 ++ "</name>" ++ tv ++ "</member>")
        [("b", GoValue.str "x"), ("a", GoValue.int .int 1)] texts ∧
      serialize (stubEnv sumResponse) (.map [("b", .str "x"), ("a", .int .int 1)])
        = some ("<value><struct>" ++ String.join texts ++ "</struct></value>")) ∧
    serialize (stubEnv sumResponse) (.map [("b", .str "x"), ("a", .int .int 1)])
      = some ("<value><struct>"
          ++ "<member><name>b</name><value><string>x</string></value></member>"
          ++ "<member><name>a</name><value><int>1</int></value></member>"
          ++ "</struct></value>") :=
  have hperm : List.Perm [("b", GoValue.str "x"), ("a", GoValue.int .int 1)]
      [("a", GoValue.int .int 1), ("b", GoValue.str "x")] := List.Perm.swap _ _ _
  have hsup : ∀ p ∈ [("a", GoValue.int .int 1), ("b", GoValue.str "x")], p.2.supported := by
    intro p hp
    simp only [List.mem_cons, List.mem_singleton, List.not_mem_nil, or_false] at hp
    rcases hp with rfl | rfl <;> simp [GoValue.supported, GoValue.nested, GoValue.accepted]
  ⟨hperm, hsup, (serialize_map_members (stubEnv sumResponse) _ _ hperm hsup).1, rfl⟩


/-! ## Counting the opening tag `<param>` -/

theorem isPrefixOf_append_of_head (Q : List Char) (hQ : ∀ c ∈ Q, c ≠ '<') (A B : List Char)
    (hB : B = [] ∨ ∃ B', B = '<' :: B') : Q.isPrefixOf (A ++ B) = Q.isPrefixOf A := by
  induction Q generalizing A with
  | nil => simp [List.isPrefixOf]
  | cons q Q ih =>
    have hq : q ≠ '<' := hQ q (List.mem_cons_self _ _)
    have hQ' : ∀ c ∈ Q, c ≠ '<' := fun c hc => hQ c (List.mem_cons_of_mem _ hc)
    cases A with
    | nil =>
      rcases hB with rfl | ⟨B', rfl⟩
      · simp [List.isPrefixOf]
      · simp [List.isPrefixOf, hq]
    | cons a A => simp [List.isPrefixOf, ih hQ' A]

theorem countOccurrences_append_of_head (Q : List Char) (hQ : ∀ c ∈ Q, c ≠ '<')
    (A B : List Char) (hB : B = [] ∨ ∃ B', B = '<' :: B') :
    countOccurrences ('<' :: Q) (A ++ B)
      = countOccurrences ('<' :: Q) A + countOccurrences ('<' :: Q) B := by
  induction A with
  | nil => simp [countOccurrences]
  | cons a A ih =>
    have hpre : ('<' :: Q).isPrefixOf (a :: (A ++ B)) = ('<' :: Q).isPrefixOf (a :: A) := by
      simp only [List.isPrefixOf, isPrefixOf_append_of_head Q hQ A B hB]
    rw [List.cons_append, countOccurrences, countOccurrences, hpre, ih]
    omega

theorem count_append_of_head (A B : List Char) (hB : B = [] ∨ ∃ B', B = '<' :: B') :
    countOccurrences "<param>".data (A ++ B)
      = countOccurrences "<param>".data A + countOccurrences "<param>".data B :=
  countOccurrences_append_of_head "param>".data (by decide) A B hB

theorem count_free (F B' : List Char) (hF : countOccurrences "<param>".data F = 0) :
    countOccurrences "<param>".data (F ++ '<' :: B')
      = countOccurrences "<param>".data ('<' :: B') := by
  rw [count_append_of_head F _ (Or.inr ⟨B', rfl⟩), hF, Nat.zero_add]

theorem countOccurrences_eq_zero_of_no_lt (Q A : List Char) (h : ∀ c ∈ A, c ≠ '<') :
    countOccurrences ('<' :: Q) A = 0 := by
  induction A with
  | nil => simp [countOccurrences]
  | cons a A ih =>
    have ha : a ≠ '<' := h a (List.mem_cons_self _ _)
    have hne : ¬ ('<' = a) := fun hc => ha hc.symm
    simp [countOccurrences, List.isPrefixOf, hne,
      ih (fun c hc => h c (List.mem_cons_of_mem _ hc))]

theorem count_eq_zero_of_no_lt (A : List Char) (h : ∀ c ∈ A, c ≠ '<') :
    countOccurrences "<param>".data A = 0 :=
  countOccurrences_eq_zero_of_no_lt "param>".data A h

theorem paramCount_formatInt (n : Int) : paramCount (formatInt n) = 0 := by
  have hdig : ∀ m : Nat, ∀ c ∈ Nat.toDigits 10 m, c ≠ '<' := by
    intro m c hc hlt
    have := (toDigits_spec m).2.1 c hc
    rw [hlt] at this
    exact absurd this (by decide)
  cases n with
  | ofNat m => exact count_eq_zero_of_no_lt _ (hdig m)
  | negSucc m =>
    apply count_eq_zero_of_no_lt
    intro c hc
    have hdata : (formatInt (Int.negSucc m)).data = '-' :: Nat.toDigits 10 (m + 1) := rfl
    rw [hdata] at hc
    rcases List.mem_cons.mp hc with rfl | hc
    · decide
    · exact hdig _ c hc

theorem count_tag_value (X : List Char) :
    countOccurrences "<param>".data ("<value>".data ++ X) = countOccurrences "<param>".data X := by
  simp [countOccurrences, List.isPrefixOf]

theorem count_tag_value_close (X : List Char) :
    countOccurrences "<param>".data ("</value>".data ++ X) = countOccurrences "<param>".data X := by
  simp [countOccurrences, List.isPrefixOf]

theorem count_tag_string (X : List Char) :
    countOccurrences "<param>".data ("<string>".data ++ X) = countOccurrences "<param>".data X := by
  simp [countOccurrences, List.isPrefixOf]

theorem count_tag_string_close (X : List Char) :
    countOccurrences "<param>".data ("</string>".data ++ X) = countOccurrences "<param>".data X := by
  simp [countOccurrences, List.isPrefixOf]

theorem count_tag_int (X : List Char) :
    countOccurrences "<param>".data ("<int>".data ++ X) = countOccurrences "<param>".data X := by
  simp [countOccurrences, List.isPrefixOf]

theorem count_tag_int_close (X : List Char) :
    countOccurrences "<param>".data ("</int>".data ++ X) = countOccurrences "<param>".data X := by
  simp [countOccurrences, List.isPrefixOf]

theorem count_tag_float (X : List Char) :
    countOccurrences "<param>".data ("<float>".data ++ X) = countOccurrences "<param>".data X := by
  simp [countOccurrences, List.isPrefixOf]

theorem count_tag_float_close (X : List Char) :
    countOccurrences "<param>".data ("</float>".data ++ X) = countOccurrences "<param>".data X := by
  simp [countOccurrences, List.isPrefixOf]

theorem count_tag_struct (X : List Char) :
    countOccurrences "<param>".data ("<struct>".data ++ X) = countOccurrences "<param>".data X := by
  simp [countOccurrences, List.isPrefixOf]

theorem count_tag_struct_close (X : List Char) :
    countOccurrences "<param>".data ("</struct>".data ++ X) = countOccurrences "<param>".data X := by
  simp [countOccurrences, List.isPrefixOf]

theorem count_tag_member (X : List Char) :
    countOccurrences "<param>".data ("<member>".data ++ X) = countOccurrences "<param>".data X := by
  simp [countOccurrences, List.isPrefixOf]

theorem count_tag_member_close (X : List Char) :
    countOccurrences "<param>".data ("</member>".data ++ X) = countOccurrences "<param>".data X := by
  simp [countOccurrences, List.isPrefixOf]

theorem count_tag_name (X : List Char) :
    countOccurrences "<param>".data ("<name>".data ++ X) = countOccurrences "<param>".data X := by
  simp [countOccurrences, List.isPrefixOf]

theorem count_tag_name_close (X : List Char) :
    countOccurrences "<param>".data ("</name>".data ++ X) = countOccurrences "<param>".data X := by
  simp [countOccurrences, List.isPrefixOf]

theorem count_tag_methodCall (X : List Char) :
    countOccurrences "<param>".data ("<methodCall>".data ++ X) = countOccurrences "<param>".data X := by
  simp [countOccurrences, List.isPrefixOf]

theorem count_tag_methodName (X : List Char) :
    countOccurrences "<param>".data ("<methodName>".data ++ X) = countOccurrences "<param>".data X := by
  simp [countOccurrences, List.isPrefixOf]

theorem count_tag_methodName_close (X : List Char) :
    countOccurrences "<param>".data ("</methodName>".data ++ X) = countOccurrences "<param>".data X := by
  simp [countOccurrences, List.isPrefixOf]

theorem count_tag_params (X : List Char) :
    countOccurrences "<param>".data ("<params>".data ++ X) = countOccurrences "<param>".data X := by
  simp [countOccurrences, List.isPrefixOf]

theorem count_tag_param (X : List Char) :
    countOccurrences "<param>".data ("<param>".data ++ X) = 1 + countOccurrences "<param>".data X := by
  simp [countOccurrences, List.isPrefixOf]

theorem count_tag_param_close (X : List Char) :
    countOccurrences "<param>".data ("</param>".data ++ X) = countOccurrences "<param>".data X := by
  simp [countOccurrences, List.isPrefixOf]

theorem count_free_before (F T Y : List Char) (hF : countOccurrences "<param>".data F = 0)
    (hT : ∃ T', T = '<' :: T') :
    countOccurrences "<param>".data (F ++ (T ++ Y))
      = countOccurrences "<param>".data (T ++ Y) := by
  obtain ⟨T', rfl⟩ := hT
  exact count_free F (T' ++ Y) hF

mutual
theorem count_serialize (env : Env) :
    ∀ (v : GoValue) (t : String), serialize env v = some t → v.tagFree env →
      ∀ X, countOccurrences "<param>".data (t.data ++ X) = countOccurrences "<param>".data X
  | .str s, t, h, hf, X => by
    simp only [serialize, Option.some.injEq] at h
    subst h
    have hs : countOccurrences "<param>".data s.data = 0 := by
      simpa [GoValue.tagFree, paramCount] using hf
    simp only [String.data_append, List.append_assoc]
    rw [count_tag_value, count_tag_string, count_free_before s.data "</string>".data _ hs ⟨_, rfl⟩,
      count_tag_string_close, count_tag_value_close]
  | .int k n, t, h, _, X => by
    simp only [serialize, Option.some.injEq] at h
    subst h
    simp only [String.data_append, List.append_assoc]
    rw [count_tag_value, count_tag_int,
      count_free_before (formatInt n).data "</int>".data _ (paramCount_formatInt n) ⟨_, rfl⟩,
      count_tag_int_close, count_tag_value_close]
  | .float k f, t, h, hf, X => by
    simp only [serialize, Option.some.injEq] at h
    subst h
    have hs : countOccurrences "<param>".data (env.formatFloat k f).data = 0 := by
      simpa [GoValue.tagFree, paramCount] using hf
    simp only [String.data_append, List.append_assoc]
    rw [count_tag_value, count_tag_float, count_free_before _ "</float>".data _ hs ⟨_, rfl⟩,
      count_tag_float_close, count_tag_value_close]
  | .map m, t, h, hf, X => by
    simp only [serialize] at h
    rw [serializeEntries_acc] at h
    cases hb : serializeEntries env m "" with
    | none => simp [hb] at h
    | some body =>
      simp only [hb, Option.map_some', Option.some.injEq] at h
      subst h
      have hm : tagFreeEntries env m := by simpa [GoValue.tagFree] using hf
      simp only [String.data_append, List.append_assoc]
      rw [count_tag_value, count_tag_struct, count_serializeEntries env m body hb hm,
        count_tag_struct_close, count_tag_value_close]
  | .reflMap m, t, h, hf, X => by
    simp only [serialize] at h
    rw [serializeKeyed_acc] at h
    cases hb : serializeKeyed env m "" with
    | none => simp [hb] at h
    | some body =>
      simp only [hb, Option.map_some', Option.some.injEq] at h
      subst h
      have hm : tagFreeKeyed env m := by simpa [GoValue.tagFree] using hf
      simp only [String.data_append, List.append_assoc]
      rw [count_tag_value, count_tag_struct, count_serializeKeyed env m body hb hm,
        count_tag_struct_close, count_tag_value_close]
  | .nil, t, h, _, X => by simp [serialize] at h
  | .bool b, t, h, _, X => by simp [serialize] at h
  | .time u, t, h, _, X => by simp [serialize] at h
  | .slice xs, t, h, _, X => by simp [serialize] at h
  | .other d, t, h, _, X => by simp [serialize] at h
theorem count_serializeEntries (env : Env) :
    ∀ (m : List (String × GoValue)) (body : String), serializeEntries env m "" = some body →
      tagFreeEntries env m →
      ∀ X, countOccurrences "<param>".data (body.data ++ X)
        = countOccurrences "<param>".data X
  | [], body, h, _, X => by
    simp only [serializeEntries, Option.some.injEq] at h
    subst h
    rfl
  | (k, v) :: rest, body, h, hf, X => by
    simp only [tagFreeEntries] at hf
    obtain ⟨hk, hv, hrest⟩ := hf
    cases hs : serialize env v with
    | none => simp [serializeEntries, hs] at h
    | some s =>
      simp only [serializeEntries, hs] at h
      rw [serializeEntries_acc] at h
      cases hb : serializeEntries env rest "" with
      | none => simp [hb] at h
      | some body' =>
        simp only [hb, Option.map_some', Option.some.injEq] at h
        subst h
        simp only [String.empty_append, String.data_append, List.append_assoc]
        rw [count_tag_member, count_tag_name, count_free_before k.data "</name>".data _ hk ⟨_, rfl⟩,
          count_tag_name_close, count_serialize env v s hs hv, count_tag_member_close,
          count_serializeEntries env rest body' hb hrest]
theorem count_serializeKeyed (env : Env) :
    ∀ (m : List (GoValue × GoValue)) (body : String), serializeKeyed env m "" = some body →
      tagFreeKeyed env m →
      ∀ X, countOccurrences "<param>".data (body.data ++ X)
        = countOccurrences "<param>".data X
  | [], body, h, _, X => by
    simp only [serializeKeyed, Option.some.injEq] at h
    subst h
    rfl
  | (k, v) :: rest, body, h, hf, X => by
    simp only [tagFreeKeyed] at hf
    obtain ⟨hk, hv, hrest⟩ := hf
    cases hs : serialize env v with
    | none => simp [serializeKeyed, hs] at h
    | some s =>
      simp only [serializeKeyed, hs] at h
      rw [serializeKeyed_acc] at h
      cases hb : serializeKeyed env rest "" with
      | none => simp [hb] at h
      | some body' =>
        simp only [hb, Option.map_some', Option.some.injEq] at h
        subst h
        simp only [String.empty_append, String.data_append, List.append_assoc]
        rw [count_tag_member, count_tag_name, count_free_before _ "</name>".data _ hk ⟨_, rfl⟩,
          count_tag_name_close, count_serialize env v s hs hv, count_tag_member_close,
          count_serializeKeyed env rest body' hb hrest]
end

theorem count_join_params (env : Env) (params : List GoValue) (texts : List String)
    (h : List.Forall₂ (fun v t => serialize env v = some t) params texts)
    (hfree : ∀ v ∈ params, v.tagFree env) (X : List Char) :
    countOccurrences "<param>".data
        ((String.join (texts.map (fun t => "<param>" ++ t ++ "</param>"))).data ++ X)
      = params.length + countOccurrences "<param>".data X := by
  induction h with
  | nil => simp [String.join]
  | @cons v t vs ts hv _ ih =>
    have hfv : v.tagFree env := hfree v (List.mem_cons_self _ _)
    have hrest : ∀ u ∈ vs, u.tagFree env := fun u hu => hfree u (List.mem_cons_of_mem _ hu)
    simp only [List.map_cons, join_cons, String.data_append, List.append_assoc,
      List.length_cons]
    rw [count_tag_param, count_serialize env v t hv hfv, count_tag_param_close, ih hrest]
    have e : "<param>".data = ['<', 'p', 'a', 'r', 'a', 'm', '>'] := rfl
    simp only [e]
    omega

/-- C16, amended: for supported parameters, when neither the method name nor any text
`serialize` inserts verbatim (string values, map keys, rendered floats) contains `<param>`
itself, the number of occurrences of `<param>` in the text returned by `Serialize` is the
number of parameters. -/
theorem Serialize_param_count (env : Env) (method : String) (params : List GoValue)
    (hsup : ∀ v ∈ params, v.supported) (hfree : ∀ v ∈ params, v.tagFree env)
    (hmethod : paramCount method = 0) :
    ∃ request, Serialize env method params = some request ∧
      paramCount request = params.length := by
  obtain ⟨texts, ht⟩ := forall₂_serialize_of_supported env params hsup
  refine ⟨"<methodCall>" ++ ("<methodName>" ++ method ++ "</methodName>") ++ "<params>"
      ++ String.join (texts.map (fun t => "<param>" ++ t ++ "</param>"))
      ++ "</params></methodCall>",
    by simp only [Serialize, serializeParams_eq_some env params texts ht], ?_⟩
  have hlast : countOccurrences "<param>".data "</params></methodCall>".data = 0 := by
    decide
  have hm : countOccurrences "<param>".data method.data = 0 := hmethod
  simp only [paramCount, String.data_append, List.append_assoc]
  rw [count_tag_methodCall, count_tag_methodName,
    count_free_before method.data "</methodName>".data _ hm ⟨_, rfl⟩,
    count_tag_methodName_close, count_tag_params, count_join_params env params texts ht hfree]
  exact congrArg (fun c => params.length + c) hlast

/-- C16, amended, on the call `add(2, "x")`: two parameters, two opening tags. -/
theorem Serialize_param_count_witness :
    (∀ v ∈ [GoValue.int .int 2, GoValue.str "x"], v.supported) ∧
    (∀ v ∈ [GoValue.int .int 2, GoValue.str "x"], v.tagFree (stubEnv sumResponse)) ∧
    paramCount "add" = 0 ∧
    ∃ request,
      Serialize (stubEnv sumResponse) "add" [.int .int 2, .str "x"] = some request ∧
      paramCount request = [GoValue.int .int 2, GoValue.str "x"].length :=
  have hsup : ∀ v ∈ [GoValue.int .int 2, GoValue.str "x"], v.supported := by
    intro v hv
    simp only [List.mem_cons, List.mem_singleton, List.not_mem_nil, or_false] at hv
    rcases hv with rfl | rfl <;> simp [GoValue.supported, GoValue.nested, GoValue.accepted]
  have hfree : ∀ v ∈ [GoValue.int .int 2, GoValue.str "x"],
      v.tagFree (stubEnv sumResponse) := by
    intro v hv
    simp only [List.mem_cons, List.mem_singleton, List.not_mem_nil, or_false] at hv
    rcases hv with rfl | rfl
    · simp [GoValue.tagFree]
    · show paramCount "x" = 0
      decide
  ⟨hsup, hfree, by decide,
   Serialize_param_count (stubEnv sumResponse) "add" _ hsup hfree (by decide)⟩

set_option maxRecDepth 20000 in
/-- C16 as stated fails when a text inserted verbatim holds the tag: the method name
`<param>` with no parameter gives one occurrence, and the single string parameter
`<param>` and the single mapping with key `<param>` give two occurrences each. -/
theorem Serialize_param_count_counterexample :
    Serialize (stubEnv sumResponse) "<param>" []
      = some "<methodCall><methodName><param></methodName><params></params></methodCall>" ∧
    paramCount "<methodCall><methodName><param></methodName><params></params></methodCall>"
      ≠ ([] : List GoValue).length ∧
    (∀ v ∈ [GoValue.str "<param>"], v.supported) ∧
    (∃ request, Serialize (stubEnv sumResponse) "m" [.str "<param>"] = some request ∧
      paramCount request = 2 ∧ [GoValue.str "<param>"].length = 1) ∧
    (∀ v ∈ [GoValue.map [("<param>", .int .int 1)]], v.supported) ∧
    (∃ request,
      Serialize (stubEnv sumResponse) "m" [.map [("<param>", .int .int 1)]] = some request ∧
      paramCount request = 2 ∧ [GoValue.map [("<param>", .int .int 1)]].length = 1) := by
  refine ⟨rfl, by decide, ?_, ⟨_, rfl, by decide, rfl⟩, ?_, ⟨_, rfl, by decide, rfl⟩⟩
  · intro v hv
    simp only [List.mem_singleton] at hv
    subst hv
    simp [GoValue.supported, GoValue.nested, GoValue.accepted]
  · intro v hv
    simp only [List.mem_singleton] at hv
    subst hv
    simp [GoValue.supported, GoValue.nested, nestedEntries, GoValue.accepted]


/-! ## Termination of `unserialize` -/

theorem size_le_sizeList (l : List Value) (e : Value) (h : e ∈ l) : e.size ≤ sizeList l := by
  induction l with
  | nil => exact absurd h (List.not_mem_nil e)
  | cons v vs ih =>
    rcases List.mem_cons.mp h with rfl | h
    · simp only [sizeList]; omega
    · have := ih h
      simp only [sizeList]; omega

theorem size_le_sizeMembers (ms : List Member) (m : Member) (h : m ∈ ms) :
    m.value.size ≤ sizeMembers ms := by
  induction ms with
  | nil => exact absurd h (List.not_mem_nil m)
  | cons x xs ih =>
    cases x with
    | mk name value =>
      rcases List.mem_cons.mp h with rfl | h
      · simp only [sizeMembers, Member.value]; omega
      · have := ih h
        simp only [sizeMembers]; omega

mutual
theorem unserializeFuel_eq (env : Env) :
    ∀ (v : Value) (fuel : Nat), v.size ≤ fuel →
      unserializeFuel env fuel v = some (unserialize env v)
  | .mk (some l) (some o) s i b d f, fuel, h => by
    cases fuel with
    | zero => simp only [Value.size] at h; omega
    | succ fuel =>
      simp only [Value.size] at h
      simp [unserializeFuel, unserialize, listLoop_unserializeFuel env l fuel (by omega)]
  | .mk (some l) none s i b d f, fuel, h => by
    cases fuel with
    | zero => simp only [Value.size] at h; omega
    | succ fuel =>
      simp only [Value.size] at h
      simp [unserializeFuel, unserialize, listLoop_unserializeFuel env l fuel (by omega)]
  | .mk none (some o) s i b d f, fuel, h => by
    cases fuel with
    | zero => simp only [Value.size] at h; omega
    | succ fuel =>
      simp only [Value.size] at h
      simp [unserializeFuel, unserialize, memberLoop_unserializeFuel env o fuel [] (by omega)]
  | .mk none none s i b d f, fuel, h => by
    cases fuel with
    | zero => simp only [Value.size] at h; omega
    | succ fuel =>
      simp only [unserializeFuel, unserialize]
      split_ifs <;> rfl
theorem listLoop_unserializeFuel (env : Env) :
    ∀ (l : List Value) (fuel : Nat), sizeList l ≤ fuel →
      listLoop (unserializeFuel env fuel) l = some (unserializeList env l)
  | [], fuel, _ => by simp [unserializeList, listLoop]
  | v :: vs, fuel, h => by
    simp only [sizeList] at h
    simp [unserializeList, listLoop, unserializeFuel_eq env v fuel (by omega),
      listLoop_unserializeFuel env vs fuel (by omega)]
theorem memberLoop_unserializeFuel (env : Env) :
    ∀ (ms : List Member) (fuel : Nat) (acc : List (String × GoValue)), sizeMembers ms ≤ fuel →
      memberLoop (unserializeFuel env fuel) ms acc = some (unserializeMembers env ms acc)
  | [], fuel, acc, _ => by simp [unserializeMembers, memberLoop]
  | .mk name value :: ms, fuel, acc, h => by
    simp only [sizeMembers] at h
    simp [unserializeMembers, memberLoop, unserializeFuel_eq env value fuel (by omega),
      memberLoop_unserializeFuel env ms fuel _ (by omega)]
end

/-- C19: `unserialize` terminates on every wire value: run with a bound on the depth of
the call stack it returns its result as soon as the bound reaches the number of nodes of the
value, and every call it makes is on an array element or on the value of a member, which has
fewer nodes than the value itself. -/
theorem unserialize_terminates (env : Env) (v : Value) :
    (∀ fuel, v.size ≤ fuel → unserializeFuel env fuel v = some (unserialize env v)) ∧
    (∀ l, v.list = some l → ∀ e ∈ l, e.size < v.size) ∧
    (∀ ms, v.object = some ms → ∀ m ∈ ms, m.value.size < v.size) := by
  refine ⟨unserializeFuel_eq env v, ?_, ?_⟩
  · intro l hl e he
    have := size_le_sizeList l e he
    cases v with
    | mk l' o s i b d f =>
      simp only [Value.list] at hl
      subst hl
      cases o <;> simp only [Value.size] <;> omega
  · intro ms hms m hm
    have := size_le_sizeMembers ms m hm
    cases v with
    | mk l o' s i b d f =>
      simp only [Value.object] at hms
      subst hms
      cases l <;> simp only [Value.size] <;> omega

/-- C19 on an array that holds a struct that holds an int: three nodes, and a call stack of
depth three is enough. -/
theorem unserialize_terminates_witness :
    (Value.mk (some [.mk none (some [.mk "k" (intValue "7")]) "" "" "" "" ""]) none
        "" "" "" "" "").size ≤ 3 ∧
    unserializeFuel (stubEnv sumResponse) 3
        (.mk (some [.mk none (some [.mk "k" (intValue "7")]) "" "" "" "" ""]) none
          "" "" "" "" "")
      = some (unserialize (stubEnv sumResponse)
        (.mk (some [.mk none (some [.mk "k" (intValue "7")]) "" "" "" "" ""]) none
          "" "" "" "" "")) :=
  ⟨by decide,
   (unserialize_terminates (stubEnv sumResponse)
      (.mk (some [.mk none (some [.mk "k" (intValue "7")]) "" "" "" "" ""]) none
        "" "" "" "" "")).1 3 (by decide)⟩


/-! ## The reader on the text of `serialize` -/

theorem char_ne_of_toNat_ne (c d : Char) (h : c.toNat ≠ d.toNat) : c ≠ d :=
  fun hc => h (by rw [hc])

theorem lexText_lt (stk : List String) (acc Z : List Char) :
    lexText stk acc ('<' :: Z) = flush acc ++ lexOpen stk Z := by
  simp [lexText]

theorem lexText_step (stk : List String) (acc cs : List Char) (c : Char) (n1 : c ≠ '<')
    (n2 : c ≠ '&') (h5 : inCharacterRange c = true)
    (n3 : ¬ (c = '>' ∧ [']', ']'].isSuffixOf acc = true)) :
    lexText stk acc (c :: cs) = lexText stk (acc ++ [c]) cs := by
  simp only [lexText, n1, n2, h5, n3, if_false, Bool.true_eq_false]

theorem newlines_plain (s : List Char) (h : ∀ c ∈ s, plainChar c = true) :
    newlines false s = s := by
  induction s with
  | nil => rfl
  | cons c s ih =>
    have hc : plainChar c = true := h c (List.mem_cons_self _ _)
    simp only [plainChar, Bool.and_eq_true, decide_eq_true_eq] at hc
    simp [newlines, hc.1.2, ih (fun x hx => h x (List.mem_cons_of_mem _ hx))]

theorem lexText_plain (stk : List String) (s : List Char) (h : ∀ c ∈ s, plainChar c = true)
    (acc : List Char) (hsec : closesSection acc s = false) (Z : List Char) :
    lexText stk acc (s ++ '<' :: Z) = flush (acc ++ s) ++ lexOpen stk Z := by
  induction s generalizing acc with
  | nil => simp [lexText_lt]
  | cons c s ih =>
    have hc : plainChar c = true := h c (List.mem_cons_self _ _)
    simp only [plainChar, Bool.and_eq_true, decide_eq_true_eq] at hc
    obtain ⟨⟨⟨h1, h2⟩, h4⟩, h5⟩ := hc
    have n1 : c ≠ '<' := char_ne_of_toNat_ne _ _ h1
    have n2 : c ≠ '&' := char_ne_of_toNat_ne _ _ h2
    simp only [closesSection, Bool.or_eq_false_iff, Bool.and_eq_false_iff,
      decide_eq_false_iff_not] at hsec
    obtain ⟨hgt, hrest⟩ := hsec
    have n3 : ¬ (c = '>' ∧ [']', ']'].isSuffixOf acc = true) := by
      rintro ⟨hc1, hc2⟩
      rcases hgt with hgt | hgt
      · exact hgt hc1
      · rw [hc2] at hgt; exact absurd hgt (by decide)
    have ih' := ih (fun x hx => h x (List.mem_cons_of_mem _ hx)) (acc ++ [c]) hrest
    show lexText stk acc (c :: (s ++ '<' :: Z)) = flush (acc ++ c :: s) ++ lexOpen stk Z
    rw [lexText_step stk acc _ c n1 n2 h5 n3, ih']
    simp only [List.append_assoc, List.singleton_append]

theorem lexText_text_before (stk : List String) (s : String) (h : plainText s)
    (T Y : List Char) (hT : ∃ T', T = '<' :: T') :
    lexText stk [] (s.data ++ (T ++ Y)) = flush s.data ++ lexText stk [] (T ++ Y) := by
  obtain ⟨T', rfl⟩ := hT
  rw [List.cons_append, lexText_plain stk s.data h.1 [] h.2 (T' ++ Y), lexText_lt]
  simp [flush]

theorem buildTree_flush (s : String) (h : plainText s) (n : String) (kids : List Node)
    (below : List (String × List Node)) (ts : List Token) :
    buildTree ((n, kids) :: below) (flush s.data ++ ts)
      = buildTree ((n, kids ++ textKids s) :: below) ts := by
  by_cases hs : s = ""
  · subst hs
    simp [flush, textKids]
  · have hd : s.data ≠ [] := fun hc => hs (String.ext hc)
    simp [flush, textKids, hs, hd, buildTree, newlines_plain s.data h.1]

theorem buildTree_stop (n x : String) (kids : List Node) (stack : List (String × List Node))
    (ts : List Token) :
    buildTree ((n, kids) :: stack) (.stop x :: ts) = deliver stack (.elem n true kids) ts := by
  cases stack with
  | nil => rfl
  | cons p below =>
    obtain ⟨m, sibs⟩ := p
    rfl

theorem buildTree_start (n : String) (stack : List (String × List Node)) (ts : List Token) :
    buildTree stack (.start n :: ts) = buildTree ((n, []) :: stack) ts := by
  rcases stack with _ | ⟨⟨a, b⟩, _ | ⟨⟨c, d⟩, t⟩⟩ <;> rfl

theorem lex_open_value (stk : List String) (Y : List Char) :
    lexText stk [] ("<value>".data ++ Y) = .start "value" :: lexText ("value" :: stk) [] Y := by
  simp [lexText, lexOpen, lexName, flush, nameStart, nameByte]

theorem lex_close_value (stk : List String) (Y : List Char) :
    lexText ("value" :: stk) [] ("</value>".data ++ Y) = .stop "value" :: lexText stk [] Y := by
  simp [lexText, lexOpen, lexName, flush, nameStart, nameByte]

theorem lex_open_string (stk : List String) (Y : List Char) :
    lexText stk [] ("<string>".data ++ Y) = .start "string" :: lexText ("string" :: stk) [] Y := by
  simp [lexText, lexOpen, lexName, flush, nameStart, nameByte]

theorem lex_close_string (stk : List String) (Y : List Char) :
    lexText ("string" :: stk) [] ("</string>".data ++ Y) = .stop "string" :: lexText stk [] Y := by
  simp [lexText, lexOpen, lexName, flush, nameStart, nameByte]

theorem lex_open_int (stk : List String) (Y : List Char) :
    lexText stk [] ("<int>".data ++ Y) = .start "int" :: lexText ("int" :: stk) [] Y := by
  simp [lexText, lexOpen, lexName, flush, nameStart, nameByte]

theorem lex_close_int (stk : List String) (Y : List Char) :
    lexText ("int" :: stk) [] ("</int>".data ++ Y) = .stop "int" :: lexText stk [] Y := by
  simp [lexText, lexOpen, lexName, flush, nameStart, nameByte]

theorem lex_open_float (stk : List String) (Y : List Char) :
    lexText stk [] ("<float>".data ++ Y) = .start "float" :: lexText ("float" :: stk) [] Y := by
  simp [lexText, lexOpen, lexName, flush, nameStart, nameByte]

theorem lex_close_float (stk : List String) (Y : List Char) :
    lexText ("float" :: stk) [] ("</float>".data ++ Y) = .stop "float" :: lexText stk [] Y := by
  simp [lexText, lexOpen, lexName, flush, nameStart, nameByte]

theorem lex_open_double (stk : List String) (Y : List Char) :
    lexText stk [] ("<double>".data ++ Y) = .start "double" :: lexText ("double" :: stk) [] Y := by
  simp [lexText, lexOpen, lexName, flush, nameStart, nameByte]

theorem lex_close_double (stk : List String) (Y : List Char) :
    lexText ("double" :: stk) [] ("</double>".data ++ Y) = .stop "double" :: lexText stk [] Y := by
  simp [lexText, lexOpen, lexName, flush, nameStart, nameByte]

theorem lex_open_struct (stk : List String) (Y : List Char) :
    lexText stk [] ("<struct>".data ++ Y) = .start "struct" :: lexText ("struct" :: stk) [] Y := by
  simp [lexText, lexOpen, lexName, flush, nameStart, nameByte]

theorem lex_close_struct (stk : List String) (Y : List Char) :
    lexText ("struct" :: stk) [] ("</struct>".data ++ Y) = .stop "struct" :: lexText stk [] Y := by
  simp [lexText, lexOpen, lexName, flush, nameStart, nameByte]

theorem lex_open_member (stk : List String) (Y : List Char) :
    lexText stk [] ("<member>".data ++ Y) = .start "member" :: lexText ("member" :: stk) [] Y := by
  simp [lexText, lexOpen, lexName, flush, nameStart, nameByte]

theorem lex_close_member (stk : List String) (Y : List Char) :
    lexText ("member" :: stk) [] ("</member>".data ++ Y) = .stop "member" :: lexText stk [] Y := by
  simp [lexText, lexOpen, lexName, flush, nameStart, nameByte]

theorem lex_open_name (stk : List String) (Y : List Char) :
    lexText stk [] ("<name>".data ++ Y) = .start "name" :: lexText ("name" :: stk) [] Y := by
  simp [lexText, lexOpen, lexName, flush, nameStart, nameByte]

theorem lex_close_name (stk : List String) (Y : List Char) :
    lexText ("name" :: stk) [] ("</name>".data ++ Y) = .stop "name" :: lexText stk [] Y := by
  simp [lexText, lexOpen, lexName, flush, nameStart, nameByte]

theorem deliver_cons (m : String) (sibs : List Node) (below : List (String × List Node))
    (node : Node) (ts : List Token) :
    deliver ((m, sibs) :: below) node ts = buildTree ((m, sibs ++ [node]) :: below) ts := rfl

theorem plainChar_of_digit (c : Char) (h : 48 ≤ c.toNat ∧ c.toNat ≤ 57) :
    plainChar c = true := by
  simp only [plainChar, inCharacterRange, Bool.and_eq_true, Bool.or_eq_true,
    decide_eq_true_eq]
  omega

theorem closesSection_eq_false_of_no_gt (s acc : List Char) (h : ∀ c ∈ s, c ≠ '>') :
    closesSection acc s = false := by
  induction s generalizing acc with
  | nil => rfl
  | cons c s ih =>
    have hc : c ≠ '>' := h c (List.mem_cons_self _ _)
    simp [closesSection, hc, ih (acc ++ [c]) (fun x hx => h x (List.mem_cons_of_mem _ hx))]

theorem plainText_formatInt (n : Int) : plainText (formatInt n) := by
  have hdig : ∀ m : Nat, ∀ c ∈ Nat.toDigits 10 m, 48 ≤ c.toNat ∧ c.toNat ≤ 57 :=
    fun m c hc => (toDigits_spec m).2.1 c hc
  have hall : ∀ c ∈ (formatInt n).data, c = '-' ∨ (48 ≤ c.toNat ∧ c.toNat ≤ 57) := by
    cases n with
    | ofNat m => exact fun c hc => Or.inr (hdig m c hc)
    | negSucc m =>
      intro c hc
      have hdata : (formatInt (Int.negSucc m)).data = '-' :: Nat.toDigits 10 (m + 1) := rfl
      rw [hdata] at hc
      rcases List.mem_cons.mp hc with rfl | hc
      · exact Or.inl rfl
      · exact Or.inr (hdig _ c hc)
  constructor
  · intro c hc
    rcases hall c hc with rfl | hd
    · decide
    · exact plainChar_of_digit c hd
  · apply closesSection_eq_false_of_no_gt
    intro c hc hgt
    rcases hall c hc with rfl | hd
    · exact absurd hgt (by decide)
    · rw [hgt] at hd
      exact absurd hd (by decide)

mutual
theorem read_serialize (env : Env) :
    ∀ (v : GoValue) (t : String), serialize env v = some t → v.plain env →
      ∀ (stk : List String) (S : List (String × List Node)) (X : List Char),
        buildTree S (lexText stk [] (t.data ++ X))
          = deliver S (.elem "value" true (valueKids env v)) (lexText stk [] X)
  | .str s, t, h, hp, stk, S, X => by
    simp only [serialize, Option.some.injEq] at h
    subst h
    have hs : plainText s := by simpa [GoValue.plain] using hp
    simp only [String.data_append, List.append_assoc]
    rw [lex_open_value, buildTree_start, lex_open_string, buildTree_start,
      lexText_text_before _ s hs "</string>".data _ ⟨_, rfl⟩, buildTree_flush s hs,
      lex_close_string, buildTree_stop, deliver_cons, lex_close_value, buildTree_stop]
    simp [valueKids]
  | .int k n, t, h, _, stk, S, X => by
    simp only [serialize, Option.some.injEq] at h
    subst h
    simp only [String.data_append, List.append_assoc]
    rw [lex_open_value, buildTree_start, lex_open_int, buildTree_start,
      lexText_text_before _ (formatInt n) (plainText_formatInt n) "</int>".data _ ⟨_, rfl⟩,
      buildTree_flush _ (plainText_formatInt n), lex_close_int, buildTree_stop, deliver_cons, lex_close_value,
      buildTree_stop]
    simp [valueKids]
  | .float k f, t, h, hp, stk, S, X => by
    simp only [serialize, Option.some.injEq] at h
    subst h
    have hs : plainText (env.formatFloat k f) := by simpa [GoValue.plain] using hp
    simp only [String.data_append, List.append_assoc]
    rw [lex_open_value, buildTree_start, lex_open_float, buildTree_start,
      lexText_text_before _ _ hs "</float>".data _ ⟨_, rfl⟩, buildTree_flush _ hs,
      lex_close_float, buildTree_stop, deliver_cons, lex_close_value, buildTree_stop]
    simp [valueKids]
  | .map m, t, h, hp, stk, S, X => by
    simp only [serialize] at h
    rw [serializeEntries_acc] at h
    cases hb : serializeEntries env m "" with
    | none => simp [hb] at h
    | some body =>
      simp only [hb, Option.map_some', Option.some.injEq] at h
      subst h
      have hm : plainEntries env m := by simpa [GoValue.plain] using hp
      simp only [String.data_append, List.append_assoc]
      rw [lex_open_value, buildTree_start, lex_open_struct, buildTree_start,
        read_serializeEntries env m body hb hm, lex_close_struct, buildTree_stop,
        deliver_cons, lex_close_value, buildTree_stop]
      simp [valueKids]
  | .reflMap m, t, h, hp, stk, S, X => by
    simp only [serialize] at h
    rw [serializeKeyed_acc] at h
    cases hb : serializeKeyed env m "" with
    | none => simp [hb] at h
    | some body =>
      simp only [hb, Option.map_some', Option.some.injEq] at h
      subst h
      have hm : plainKeyed env m := by simpa [GoValue.plain] using hp
      simp only [String.data_append, List.append_assoc]
      rw [lex_open_value, buildTree_start, lex_open_struct, buildTree_start,
        read_serializeKeyed env m body hb hm, lex_close_struct, buildTree_stop,
        deliver_cons, lex_close_value, buildTree_stop]
      simp [valueKids]
  | .nil, t, h, _, _, _, _ => by simp [serialize] at h
  | .bool b, t, h, _, _, _, _ => by simp [serialize] at h
  | .time u, t, h, _, _, _, _ => by simp [serialize] at h
  | .slice xs, t, h, _, _, _, _ => by simp [serialize] at h
  | .other d, t, h, _, _, _, _ => by simp [serialize] at h
theorem read_serializeEntries (env : Env) :
    ∀ (m : List (String × GoValue)) (body : String), serializeEntries env m "" = some body →
      plainEntries env m →
      ∀ (stk : List String) (n : String) (kids : List Node)
        (below : List (String × List Node)) (X : List Char),
        buildTree ((n, kids) :: below) (lexText stk [] (body.data ++ X))
          = buildTree ((n, kids ++ memberNodes env m) :: below) (lexText stk [] X)
  | [], body, h, _, stk, n, kids, below, X => by
    simp only [serializeEntries, Option.some.injEq] at h
    subst h
    simp [memberNodes]
  | (k, v) :: rest, body, h, hp, stk, n, kids, below, X => by
    simp only [plainEntries] at hp
    obtain ⟨hk, hv, hrest⟩ := hp
    cases hs : serialize env v with
    | none => simp [serializeEntries, hs] at h
    | some s =>
      simp only [serializeEntries, hs] at h
      rw [serializeEntries_acc] at h
      cases hb : serializeEntries env rest "" with
      | none => simp [hb] at h
      | some body' =>
        simp only [hb, Option.map_some', Option.some.injEq] at h
        subst h
        simp only [String.empty_append, String.data_append, List.append_assoc]
        rw [lex_open_member, buildTree_start, lex_open_name, buildTree_start,
          lexText_text_before _ k hk "</name>".data _ ⟨_, rfl⟩, buildTree_flush _ hk,
          lex_close_name, buildTree_stop, deliver_cons, read_serialize env v s hs hv,
          deliver_cons, lex_close_member, buildTree_stop, deliver_cons,
          read_serializeEntries env rest body' hb hrest]
        simp [memberNodes]
theorem read_serializeKeyed (env : Env) :
    ∀ (m : List (GoValue × GoValue)) (body : String), serializeKeyed env m "" = some body →
      plainKeyed env m →
      ∀ (stk : List String) (n : String) (kids : List Node)
        (below : List (String × List Node)) (X : List Char),
        buildTree ((n, kids) :: below) (lexText stk [] (body.data ++ X))
          = buildTree ((n, kids ++ keyedNodes env m) :: below) (lexText stk [] X)
  | [], body, h, _, stk, n, kids, below, X => by
    simp only [serializeKeyed, Option.some.injEq] at h
    subst h
    simp [keyedNodes]
  | (k, v) :: rest, body, h, hp, stk, n, kids, below, X => by
    simp only [plainKeyed] at hp
    obtain ⟨hk, hv, hrest⟩ := hp
    cases hs : serialize env v with
    | none => simp [serializeKeyed, hs] at h
    | some s =>
      simp only [serializeKeyed, hs] at h
      rw [serializeKeyed_acc] at h
      cases hb : serializeKeyed env rest "" with
      | none => simp [hb] at h
      | some body' =>
        simp only [hb, Option.map_some', Option.some.injEq] at h
        subst h
        simp only [String.empty_append, String.data_append, List.append_assoc]
        rw [lex_open_member, buildTree_start, lex_open_name, buildTree_start,
          lexText_text_before _ _ hk "</name>".data _ ⟨_, rfl⟩, buildTree_flush _ hk,
          lex_close_name, buildTree_stop, deliver_cons, read_serialize env v s hs hv,
          deliver_cons, lex_close_member, buildTree_stop, deliver_cons,
          read_serializeKeyed env rest body' hb hrest]
        simp [keyedNodes]
end

theorem textOf_textKids (s : String) : textOf (textKids s) = s := by
  by_cases hs : s = ""
  · subst hs
    simp [textKids, textOf]
  · simp [textKids, hs, textOf]

mutual
theorem fillValue_valueKids (env : Env) :
    ∀ v : GoValue, fillValue Value.zero (valueKids env v) = wireOf env v
  | .str s => by
    simp [valueKids, fillValue, fillValueKid, Value.zero, wireOf, textOf_textKids]
  | .int k n => by
    simp [valueKids, fillValue, fillValueKid, Value.zero, wireOf, textOf_textKids]
  | .float k f => by
    simp [valueKids, fillValue, fillValueKid, Value.zero, wireOf]
  | .map m => by
    have h := fillStruct_memberNodes env m none none "" "" "" "" ""
    cases m with
    | nil => simpa [valueKids, fillValue, fillValueKid, Value.zero, wireOf, wireMembers, sliceOf]
        using h
    | cons p rest =>
      obtain ⟨k, v⟩ := p
      simpa [valueKids, fillValue, fillValueKid, Value.zero, wireOf, wireMembers, sliceOf]
        using h
  | .reflMap m => by
    have h := fillStruct_keyedNodes env m none none "" "" "" "" ""
    cases m with
    | nil => simpa [valueKids, fillValue, fillValueKid, Value.zero, wireOf, wireKeyed, sliceOf]
        using h
    | cons p rest =>
      obtain ⟨k, v⟩ := p
      simpa [valueKids, fillValue, fillValueKid, Value.zero, wireOf, wireKeyed, sliceOf]
        using h
  | .nil => by simp [valueKids, fillValue, wireOf]
  | .bool b => by simp [valueKids, fillValue, wireOf]
  | .time u => by simp [valueKids, fillValue, wireOf]
  | .slice xs => by simp [valueKids, fillValue, wireOf]
  | .other d => by simp [valueKids, fillValue, wireOf]
theorem fillStruct_memberNodes (env : Env) :
    ∀ (m : List (String × GoValue)) (l : Option (List Value)) (o : Option (List Member))
      (s i b d f : String),
      fillStruct (.mk l o s i b d f) (memberNodes env m)
        = .mk l (match m with
            | [] => o
            | _ :: _ => some (o.getD [] ++ wireMembers env m)) s i b d f
  | [], l, o, s, i, b, d, f => by simp [memberNodes, fillStruct]
  | (k, v) :: rest, l, o, s, i, b, d, f => by
    have hv := fillValue_valueKids env v
    have hr := fillStruct_memberNodes env rest l
      (some (o.getD [] ++ [Member.mk k (wireOf env v)])) s i b d f
    simp only [memberNodes, fillStruct, fillStructKid, fillMember, fillMemberKid, if_true,
      textOf_textKids, hv]
    simp only [show ("name" = "name") = True from by simp,
      show ("value" = "name") = False from by decide,
      show ("member" = "member") = True from by simp, if_true, if_false]
    rw [hr]
    cases rest with
    | nil => simp [wireMembers]
    | cons q qs => simp [wireMembers]
theorem fillStruct_keyedNodes (env : Env) :
    ∀ (m : List (GoValue × GoValue)) (l : Option (List Value)) (o : Option (List Member))
      (s i b d f : String),
      fillStruct (.mk l o s i b d f) (keyedNodes env m)
        = .mk l (match m with
            | [] => o
            | _ :: _ => some (o.getD [] ++ wireKeyed env m)) s i b d f
  | [], l, o, s, i, b, d, f => by simp [keyedNodes, fillStruct]
  | (k, v) :: rest, l, o, s, i, b, d, f => by
    have hv := fillValue_valueKids env v
    have hr := fillStruct_keyedNodes env rest l
      (some (o.getD [] ++ [Member.mk (match k with | .str t => t | _ => env.formatKey k)
        (wireOf env v)])) s i b d f
    simp only [keyedNodes, fillStruct, fillStructKid, fillMember, fillMemberKid, if_true,
      textOf_textKids, hv]
    simp only [show ("name" = "name") = True from by simp,
      show ("value" = "name") = False from by decide,
      show ("member" = "member") = True from by simp, if_true, if_false]
    rw [hr]
    cases rest with
    | nil => simp [wireKeyed]
    | cons q qs => simp [wireKeyed]
end

/-- For a supported value whose verbatim texts are plain, the reader returns, on the text
that `serialize` writes, the wire value `wireOf` and no error. -/
theorem xmlUnmarshalValue_serialize (env : Env) (v : GoValue) (hs : v.supported)
    (hp : v.plain env) :
    ∃ t, serialize env v = some t ∧ xmlUnmarshalValue t = some (wireOf env v, false) := by
  obtain ⟨t, ht⟩ := serialize_isSome_of_supported env v hs
  refine ⟨t, ht, ?_⟩
  have h := read_serialize env v t ht hp [] [] []
  simp only [List.append_nil, deliver] at h
  simp only [xmlUnmarshalValue, h, fillValue_valueKids]
  rfl


/-! ## Round trips through the text -/

theorem accepted_nestedEntries_of_scalar (m : List (String × GoValue))
    (h : ∀ p ∈ m, scalarInRange p.2) : ∀ u ∈ nestedEntries m, u.accepted = true := by
  induction m with
  | nil => intro u hu; simp [nestedEntries] at hu
  | cons p rest ih =>
    obtain ⟨k, v⟩ := p
    intro u hu
    simp only [nestedEntries, List.mem_append] at hu
    rcases hu with hu | hu
    · have hv : scalarInRange v := h (k, v) (List.mem_cons_self _ _)
      cases v with
      | str s =>
        simp only [GoValue.nested, List.mem_singleton] at hu
        subst hu; rfl
      | int kind n =>
        simp only [GoValue.nested, List.mem_singleton] at hu
        subst hu; rfl
      | nil => exact absurd hv (by simp [scalarInRange])
      | float kind f => exact absurd hv (by simp [scalarInRange])
      | bool b => exact absurd hv (by simp [scalarInRange])
      | time t => exact absurd hv (by simp [scalarInRange])
      | slice xs => exact absurd hv (by simp [scalarInRange])
      | map m' => exact absurd hv (by simp [scalarInRange])
      | reflMap m' => exact absurd hv (by simp [scalarInRange])
      | other d => exact absurd hv (by simp [scalarInRange])
    · exact ih (fun q hq => h q (List.mem_cons_of_mem _ hq)) u hu

theorem plainEntries_of_forall (env : Env) (m : List (String × GoValue))
    (h : ∀ p ∈ m, plainText p.1 ∧ p.2.plain env) : plainEntries env m := by
  induction m with
  | nil => simp [plainEntries]
  | cons p rest ih =>
    obtain ⟨k, v⟩ := p
    have hp := h (k, v) (List.mem_cons_self _ _)
    simp only [plainEntries]
    exact ⟨hp.1, hp.2, ih (fun q hq => h q (List.mem_cons_of_mem _ hq))⟩

/-- C5, amended: for a mapping that is not empty, from distinct plain string keys to plain
strings that are not empty and integers that fit the 64-bit `int`, and for whichever order
the entries are emitted in, `serialize` returns a text, the XML reader reads that text
without error, and the wire value it returns decodes to a mapping that holds under every key
the value of the original mapping, integers coming back as `int`. -/
theorem unserialize_xmlUnmarshalValue_map (env : Env) (m order : List (String × GoValue))
    (hperm : order.Perm m) (hne : m ≠ []) (hkeys : (mapKeys m).Nodup)
    (hvals : ∀ p ∈ m, scalarInRange p.2)
    (hplain : ∀ p ∈ m, plainText p.1 ∧ p.2.plain env) :
    ∃ t w r, serialize env (.map order) = some t ∧ xmlUnmarshalValue t = some (w, false) ∧
      unserialize env w = .map r ∧ (mapKeys r).Nodup ∧
      ∀ k, mapGet r k = (mapGet m k).map asDecoded := by
  have hsup : (GoValue.map order).supported := by
    intro u hu
    simp only [GoValue.nested, List.mem_cons] at hu
    rcases hu with rfl | hu
    · rfl
    · exact accepted_nestedEntries_of_scalar order
        (fun p hp => hvals p (hperm.mem_iff.mp hp)) u hu
  have hpl : (GoValue.map order).plain env := by
    simp only [GoValue.plain]
    exact plainEntries_of_forall env order (fun p hp => hplain p (hperm.mem_iff.mp hp))
  obtain ⟨t, ht, hread⟩ := xmlUnmarshalValue_serialize env (.map order) hsup hpl
  obtain ⟨r, hr, hnd, hget⟩ := unserialize_wireOf_map env m order hperm hne hkeys hvals
  exact ⟨t, wireOf env (.map order), r, ht, hread, hr, hnd, hget⟩

/-- C5, amended, on the mapping of the specification, `a` to 1 and `b` to "x", emitted as
`b` then `a`. -/
theorem unserialize_xmlUnmarshalValue_map_witness :
    List.Perm [("b", GoValue.str "x"), ("a", GoValue.int .int 1)]
      [("a", GoValue.int .int 1), ("b", GoValue.str "x")] ∧
    [("a", GoValue.int .int 1), ("b", GoValue.str "x")] ≠ [] ∧
    (mapKeys [("a", GoValue.int .int 1), ("b", GoValue.str "x")]).Nodup ∧
    (∀ p ∈ [("a", GoValue.int .int 1), ("b", GoValue.str "x")], scalarInRange p.2) ∧
    (∀ p ∈ [("a", GoValue.int .int 1), ("b", GoValue.str "x")],
      plainText p.1 ∧ p.2.plain readerEnv) ∧
    (∃ t w r,
      serialize readerEnv (.map [("b", .str "x"), ("a", .int .int 1)]) = some t ∧
      xmlUnmarshalValue t = some (w, false) ∧ unserialize readerEnv w = .map r ∧
      (mapKeys r).Nodup ∧
      ∀ k, mapGet r k
        = (mapGet [("a", GoValue.int .int 1), ("b", GoValue.str "x")] k).map asDecoded) ∧
    xmlUnmarshalValue
        ("<value><struct>"
          ++ "<member><name>b</name><value><string>x</string></value></member>"
          ++ "<member><name>a</name><value><int>1</int></value></member>"
          ++ "</struct></value>")
      = some (.mk none (some [.mk "b" (.mk none none "x" "" "" "" ""), .mk "a" (intValue "1")])
          "" "" "" "" "", false) :=
  have hperm : List.Perm [("b", GoValue.str "x"), ("a", GoValue.int .int 1)]
      [("a", GoValue.int .int 1), ("b", GoValue.str "x")] := List.Perm.swap _ _ _
  have hkeys : (mapKeys [("a", GoValue.int .int 1), ("b", GoValue.str "x")]).Nodup := by
    simp [mapKeys]
  have hvals : ∀ p ∈ [("a", GoValue.int .int 1), ("b", GoValue.str "x")],
      scalarInRange p.2 := by
    intro p hp
    simp only [List.mem_cons, List.mem_singleton, List.not_mem_nil, or_false] at hp
    rcases hp with rfl | rfl
    · exact ⟨by decide, by decide⟩
    · show ("x" : String) ≠ ""
      decide
  have hplain : ∀ p ∈ [("a", GoValue.int .int 1), ("b", GoValue.str "x")],
      plainText p.1 ∧ p.2.plain readerEnv := by
    intro p hp
    simp only [List.mem_cons, List.mem_singleton, List.not_mem_nil, or_false] at hp
    rcases hp with rfl | rfl
    · exact ⟨by decide, by simp [GoValue.plain]⟩
    · refine ⟨by decide, ?_⟩
      show plainText "x"
      decide
  ⟨hperm, by simp, hkeys, hvals, hplain,
   unserialize_xmlUnmarshalValue_map readerEnv _ _ hperm (by simp) hkeys hvals hplain, rfl⟩

set_option maxRecDepth 20000 in
/-- C5 as stated fails in five ways.  The empty mapping is written as an empty `struct`,
which the reader turns into the zero wire value, and that decodes to nil.  The largest
`uint64` comes back as the largest `int`.  A string that holds an entity, written as it
stands, comes back with the entity replaced, and one that holds a carriage return comes back
with a line feed.  A string or a key that holds `<`, written as it stands, makes the reader
fail inside the member, which is cut off: the mapping that comes back is empty. -/
theorem unserialize_xmlUnmarshalValue_map_counterexample :
    serialize readerEnv (.map []) = some "<value><struct></struct></value>" ∧
    xmlUnmarshalValue "<value><struct></struct></value>" = some (Value.zero, false) ∧
    unserialize readerEnv Value.zero = .nil ∧
    IntKind.uint64.holds 18446744073709551615 ∧
    serialize readerEnv (.map [("a", .int .uint64 18446744073709551615)])
      = some ("<value><struct><member><name>a</name>"
          ++ "<value><int>18446744073709551615</int></value></member></struct></value>") ∧
    xmlUnmarshalValue ("<value><struct><member><name>a</name>"
          ++ "<value><int>18446744073709551615</int></value></member></struct></value>")
      = some (.mk none (some [.mk "a" (intValue "18446744073709551615")]) "" "" "" "" "",
          false) ∧
    unserialize readerEnv
        (.mk none (some [.mk "a" (intValue "18446744073709551615")]) "" "" "" "" "")
      = .map [("a", .int .int 9223372036854775807)] ∧
    serialize readerEnv (.map [("a", .str "x&amp;y")])
      = some ("<value><struct><member><name>a</name>"
          ++ "<value><string>x&amp;y</string></value></member></struct></value>") ∧
    xmlUnmarshalValue ("<value><struct><member><name>a</name>"
          ++ "<value><string>x&amp;y</string></value></member></struct></value>")
      = some (.mk none (some [.mk "a" (.mk none none "x&y" "" "" "" "")]) "" "" "" "" "",
          false) ∧
    unserialize readerEnv (.mk none (some [.mk "a" (.mk none none "x&y" "" "" "" "")])
        "" "" "" "" "")
      = .map [("a", .str "x&y")] ∧
    mapGet [("a", GoValue.str "x&y")] "a"
      ≠ (mapGet [("a", GoValue.str "x&amp;y")] "a").map asDecoded ∧
    serialize readerEnv (.map [("a", .str "x\ry")])
      = some ("<value><struct><member><name>a</name>"
          ++ "<value><string>x\ry</string></value></member></struct></value>") ∧
    xmlUnmarshalValue ("<value><struct><member><name>a</name>"
          ++ "<value><string>x\ry</string></value></member></struct></value>")
      = some (.mk none (some [.mk "a" (.mk none none "x\ny" "" "" "" "")]) "" "" "" "" "",
          false) ∧
    unserialize readerEnv (.mk none (some [.mk "a" (.mk none none "x\ny" "" "" "" "")])
        "" "" "" "" "")
      = .map [("a", .str "x\ny")] ∧
    mapGet [("a", GoValue.str "x\ny")] "a"
      ≠ (mapGet [("a", GoValue.str "x\ry")] "a").map asDecoded ∧
    serialize readerEnv (.map [("a", .str "x<y")])
      = some ("<value><struct><member><name>a</name>"
          ++ "<value><string>x<y</string></value></member></struct></value>") ∧
    xmlUnmarshalValue ("<value><struct><member><name>a</name>"
          ++ "<value><string>x<y</string></value></member></struct></value>")
      = some (.mk none (some []) "" "" "" "" "", true) ∧
    serialize readerEnv (.map [("a<b", .int .int 1)])
      = some ("<value><struct><member><name>a<b</name>"
          ++ "<value><int>1</int></value></member></struct></value>") ∧
    xmlUnmarshalValue ("<value><struct><member><name>a<b</name>"
          ++ "<value><int>1</int></value></member></struct></value>")
      = some (.mk none (some []) "" "" "" "" "", true) ∧
    unserialize readerEnv (.mk none (some []) "" "" "" "" "") = .map [] ∧
    mapGet [] "a" ≠ (mapGet [("a", GoValue.str "x<y")] "a").map asDecoded ∧
    mapGet [] "a<b" ≠ (mapGet [("a<b", GoValue.int .int 1)] "a<b").map asDecoded := by
  refine ⟨rfl, rfl, rfl, by decide, rfl, rfl, rfl, rfl, rfl, rfl, ?_, rfl, rfl, rfl, ?_,
    rfl, rfl, rfl, rfl, rfl, ?_, ?_⟩
  · simp [mapGet, asDecoded]
  · simp [mapGet, asDecoded]
  · simp [mapGet]
  · simp [mapGet]

/-- C18: a floating value is written under the tag `float`; when its rendering is plain,
as the output of `%f` is, the XML reader reads that text without error and fills no field,
`float` being the tag of no field of `Value`, so the wire value read back has every field
empty and decodes to nil, which is not the floating value.  The same rendering under the
tag `double` would be read into the field `Double`. -/
theorem serialize_float_not_read_back (env : Env) (k : FloatKind) (bits : Nat)
    (hplain : plainText (env.formatFloat k bits)) :
    serialize env (.float k bits)
      = some ("<value><float>" ++ env.formatFloat k bits ++ "</float></value>") ∧
    xmlUnmarshalValue ("<value><float>" ++ env.formatFloat k bits ++ "</float></value>")
      = some (Value.zero, false) ∧
    ¬ Value.zero.populated ∧
    unserialize env Value.zero = .nil ∧
    GoValue.nil ≠ .float k bits ∧
    xmlUnmarshalValue ("<value><double>" ++ env.formatFloat k bits ++ "</double></value>")
      = some (.mk none none "" "" "" "" (env.formatFloat k bits), false) := by
  have e1 : "<value><float>" = "<value>" ++ "<float>" := by decide
  have e2 : "</float></value>" = "</float>" ++ "</value>" := by decide
  have e3 : "<value><double>" = "<value>" ++ "<double>" := by decide
  have e4 : "</double></value>" = "</double>" ++ "</value>" := by decide
  have hser : serialize env (.float k bits)
      = some ("<value><float>" ++ env.formatFloat k bits ++ "</float></value>") := by
    simp only [serialize, e1, e2, String.append_assoc]
  have hsup : (GoValue.float k bits).supported := by
    intro u hu
    simp only [GoValue.nested, List.mem_singleton] at hu
    subst hu; rfl
  have hpl : (GoValue.float k bits).plain env := by
    simpa [GoValue.plain] using hplain
  refine ⟨hser, ?_, ?_, ?_, fun h => GoValue.noConfusion h, ?_⟩
  · obtain ⟨t, ht, hread⟩ := xmlUnmarshalValue_serialize env (.float k bits) hsup hpl
    rw [hser] at ht
    cases ht
    simpa [wireOf] using hread
  · simp [Value.zero, Value.populated, Value.list, Value.object, Value.string, Value.int,
      Value.boolean, Value.dateTime, Value.double]
  · simp [Value.zero, unserialize]
  · have hb : buildTree [] (lexText [] []
        (("<value><double>" ++ env.formatFloat k bits ++ "</double></value>").data ++ []))
        = some (some (.elem "value" true
            [.elem "double" true (textKids (env.formatFloat k bits))])) := by
      simp only [e3, e4, String.data_append, List.append_assoc]
      rw [lex_open_value, buildTree_start, lex_open_double, buildTree_start,
        lexText_text_before _ _ hplain "</double>".data _ ⟨_, rfl⟩, buildTree_flush _ hplain,
        lex_close_double, buildTree_stop, deliver_cons, lex_close_value, buildTree_stop]
      simp [deliver]
    rw [List.append_nil] at hb
    simp only [xmlUnmarshalValue, hb]
    simp [fillValue, fillValueKid, Value.zero, textOf_textKids]

/-- C18 on a `float64` whose rendering is `0.000000`. -/
theorem serialize_float_not_read_back_witness :
    plainText (readerEnv.formatFloat .float64 0) ∧
    serialize readerEnv (.float .float64 0) = some "<value><float>0.000000</float></value>" ∧
    xmlUnmarshalValue "<value><float>0.000000</float></value>" = some (Value.zero, false) ∧
    unserialize readerEnv Value.zero = .nil :=
  have hp : plainText (readerEnv.formatFloat .float64 0) := by
    show plainText "0.000000"
    decide
  ⟨hp, (serialize_float_not_read_back readerEnv .float64 0 hp).1,
   (serialize_float_not_read_back readerEnv .float64 0 hp).2.1,
   (serialize_float_not_read_back readerEnv .float64 0 hp).2.2.2.1⟩

end Xmlrpc
